import Mathlib

/-!
Verification of the media-organizer planning/reconciliation core.

Shallow embedding of the Go packages `reconcile`, `plan` and `createdat` of
quidome/media-organizer-go, together with proofs about the embedded
functions.

Modelling conventions:
* file contents are `List Nat` (a byte is a `Nat`; only equality of bytes
  matters to the code under verification);
* a filesystem that can report "file does not exist" is an association list
  `List (String × List Nat)`; code paths in which every stat/read succeeds
  are modelled by total functions `String → List Nat`;
* Go strings are Lean `String`s, manipulated through their character lists;
* `fmt.Sprintf("%d", n)` is modelled by an explicit decimal printer
  `decString`;
* the SHA-256 header fingerprint used by the duplicate resolver is modelled
  by the header prefix itself (an injective idealisation of the digest;
  content-equal files always share it and the subsequent exact comparison
  makes the final clustering independent of hash collisions);
* unbounded `for` loops that search for an unreserved path are modelled
  with explicit fuel; every theorem about them either supplies enough fuel
  or takes success of the search as a hypothesis.
-/

namespace MediaOrg

open scoped List

/-! ## Decimal printing (`fmt.Sprintf("%d", _)` and zero padding) -/

/-- The ASCII digit character for `n < 10`. -/
def digitChar (n : Nat) : Char :=
  match n with
  | 0 => '0' | 1 => '1' | 2 => '2' | 3 => '3' | 4 => '4'
  | 5 => '5' | 6 => '6' | 7 => '7' | 8 => '8' | 9 => '9'
  | _ => '*'

/-- Digit-list worker with structural fuel, so that the kernel can
evaluate decimal printing; `fuel > n` always suffices. -/
def decCharsAux : Nat → Nat → List Char
  | 0, _ => []
  | fuel + 1, n =>
    if n < 10 then [digitChar n] else decCharsAux fuel (n / 10) ++ [digitChar (n % 10)]

/-- Decimal digits of `n`, most significant first. -/
def decChars (n : Nat) : List Char := decCharsAux (n + 1) n

theorem decCharsAux_irrel : ∀ (n fuel1 fuel2 : Nat), n < fuel1 → n < fuel2 →
    decCharsAux fuel1 n = decCharsAux fuel2 n := by
  intro n
  induction n using Nat.strong_induction_on with
  | _ n ih =>
    intro fuel1 fuel2 h1 h2
    cases fuel1 with
    | zero => omega
    | succ f1 =>
      cases fuel2 with
      | zero => omega
      | succ f2 =>
        simp only [decCharsAux]
        by_cases hn : n < 10
        · rw [if_pos hn, if_pos hn]
        · rw [if_neg hn, if_neg hn]
          have hdiv : n / 10 < n := Nat.div_lt_self (by omega) (by omega)
          rw [ih (n / 10) hdiv f1 f2 (by omega) (by omega)]

theorem decChars_eq (n : Nat) : decChars n =
    if n < 10 then [digitChar n] else decChars (n / 10) ++ [digitChar (n % 10)] := by
  show decCharsAux (n + 1) n = _
  simp only [decCharsAux]
  by_cases hn : n < 10
  · rw [if_pos hn, if_pos hn]
  · rw [if_neg hn, if_neg hn]
    have hdiv : n / 10 < n := Nat.div_lt_self (by omega) (by omega)
    rw [decCharsAux_irrel (n / 10) n (n / 10 + 1) (by omega) (by omega)]
    rfl

/-- `fmt.Sprintf("%d", n)`. -/
def decString (n : Nat) : String := ⟨decChars n⟩

/-- `fmt.Sprintf("%0wd", n)`: decimal left-padded with zeros to width `w`. -/
def padDec (w n : Nat) : String := ⟨List.replicate (w - (decChars n).length) '0' ++ decChars n⟩

theorem digitChar_inj {m n : Nat} (hm : m < 10) (hn : n < 10) (h : digitChar m = digitChar n) :
    m = n := by
  have key : ∀ a < 10, ∀ b < 10, digitChar a = digitChar b → a = b := by decide
  exact key m hm n hn h

theorem decChars_ne_nil (n : Nat) : decChars n ≠ [] := by
  rw [decChars_eq]
  split
  · simp
  · simp

theorem decChars_inj : ∀ {m n : Nat}, decChars m = decChars n → m = n := by
  intro m
  induction m using Nat.strong_induction_on with
  | _ m ih =>
    intro n h
    rw [decChars_eq m, decChars_eq n] at h
    split at h <;> split at h
    · rename_i hm hn
      simp only [List.cons.injEq] at h
      exact digitChar_inj hm hn h.1
    · rename_i hm hn
      exfalso
      have hpos : 0 < (decChars (n / 10)).length :=
        List.length_pos.mpr (decChars_ne_nil (n / 10))
      have hl := congrArg List.length h
      simp only [List.length_cons, List.length_append, List.length_nil] at hl
      omega
    · rename_i hm hn
      exfalso
      have hpos : 0 < (decChars (m / 10)).length :=
        List.length_pos.mpr (decChars_ne_nil (m / 10))
      have hl := congrArg List.length h
      simp only [List.length_cons, List.length_append, List.length_nil] at hl
      omega
    · rename_i hm hn
      have hl := congrArg List.length h
      simp only [List.length_append, List.length_cons, List.length_nil] at hl
      have h2 := List.append_inj h (by omega)
      obtain ⟨h3, h4⟩ := h2
      have hdiv : m / 10 = n / 10 := ih (m / 10) (Nat.div_lt_self (by omega) (by omega)) h3
      have hmod : m % 10 = n % 10 := by
        simp only [List.cons.injEq] at h4
        exact digitChar_inj (Nat.mod_lt _ (by omega)) (Nat.mod_lt _ (by omega)) h4.1
      omega

/-! ## Path and filename helpers (`path/filepath`, `strings`) -/

/-- `filepath.Join(dir, name)` for cleaned components, as used throughout the
planner and reconciler. -/
def joinPath (dir name : String) : String := dir ++ "/" ++ name

/-- `filepath.Base`: the part of the path after the final slash. -/
def baseName (p : String) : String :=
  ⟨((p.toList.reverse.takeWhile (fun c => c ≠ '/')).reverse)⟩

/-- "Is not the dot character" — the scan predicate of `filepath.Ext`. -/
def notDot (c : Char) : Bool := c ≠ '.'

/-- Characters of `filepath.Ext`: the suffix starting at the final dot,
`[]` when the name has no dot. -/
def extChars (cs : List Char) : List Char :=
  if cs.reverse.contains '.' then '.' :: (cs.reverse.takeWhile notDot).reverse else []

/-- `filepath.Ext` on a base name. -/
def extOf (name : String) : String := ⟨extChars name.toList⟩

/-- `strings.TrimSuffix`. -/
def trimSuffix (s suffix : String) : String :=
  if suffix.toList.isSuffixOf s.toList then ⟨s.toList.take (s.toList.length - suffix.toList.length)⟩
  else s

/-! ## Content equality engine (`reconcile.filesAreIdentical`) -/

/-- `headerBytes` from `reconcile`: size of the header comparison window. -/
def headerBytes : Nat := 64 * 1024

/-- Chunk size of the streaming remainder comparison. -/
def chunkSize : Nat := 32 * 1024

/-- The streaming remainder loop of `filesAreIdentical`: repeatedly read up
to 32 KiB from both files, fail on a length mismatch or differing bytes,
succeed when both reach EOF together.  A read on a file with `k` bytes left
yields `min 32768 k` bytes, and EOF is reached exactly when no bytes are
left. -/
def compareRest (r1 r2 : List Nat) : Bool :=
  if h1 : min chunkSize r1.length ≠ min chunkSize r2.length then false
  else if r1.take (min chunkSize r1.length) ≠ r2.take (min chunkSize r2.length) then false
  else if h3 : r1.isEmpty ∧ r2.isEmpty then true
  else compareRest (r1.drop (min chunkSize r1.length)) (r2.drop (min chunkSize r2.length))
termination_by r1.length
decreasing_by
  push_neg at h1
  simp only [List.isEmpty_iff, not_and_or] at h3
  have hr1 : r1 ≠ [] := by
    intro he
    subst he
    simp only [List.length_nil, Nat.min_zero] at h1
    have hr2 : r2 = [] := by
      cases hc : r2 with
      | nil => rfl
      | cons b l =>
        exfalso
        rw [hc] at h1
        simp only [List.length_cons, chunkSize] at h1
        omega
    cases h3 with
    | inl hc => exact hc rfl
    | inr hc => exact hc hr2
  have hpos : 0 < r1.length := List.length_pos.mpr hr1
  have hmin : 0 < min chunkSize r1.length := by
    simp only [chunkSize]
    omega
  simp only [List.length_drop]
  omega

/-- `reconcile.filesAreIdentical`, at the level of the two files' byte
contents (the success case: both stats and all reads succeed, and the
stat'd sizes are the content lengths).  Size check, then the header window
(64 KiB, shrunk to the file for smaller files), then the streaming
remainder. -/
def filesAreIdentical (c1 c2 : List Nat) : Bool :=
  if c1.length ≠ c2.length then false
  else if (c1.take (if c1.length < headerBytes then c1.length else headerBytes)).length ≠
      (c2.take (if c1.length < headerBytes then c1.length else headerBytes)).length then false
  else if c1.take (if c1.length < headerBytes then c1.length else headerBytes) ≠
      c2.take (if c1.length < headerBytes then c1.length else headerBytes) then false
  else if c1.length ≤ (if c1.length < headerBytes then c1.length else headerBytes) then true
  else compareRest (c1.drop (if c1.length < headerBytes then c1.length else headerBytes))
    (c2.drop (if c1.length < headerBytes then c1.length else headerBytes))

/-- Instrumented view of `filesAreIdentical` recording whether the files
were ever opened: the Go function stats both paths and returns before
opening either file when the sizes differ. -/
def filesAreIdenticalOpens (c1 c2 : List Nat) : Bool × Bool :=
  if c1.length ≠ c2.length then (false, false)
  else (filesAreIdentical c1 c2, true)

theorem compareRest_eq_true_iff : ∀ (r1 r2 : List Nat), compareRest r1 r2 = true ↔ r1 = r2 := by
  have main : ∀ n, ∀ r1 r2 : List Nat, r1.length ≤ n → (compareRest r1 r2 = true ↔ r1 = r2) := by
    intro n
    induction n with
    | zero =>
      intro r1 r2 h
      have hr1 : r1 = [] := List.eq_nil_of_length_eq_zero (Nat.le_zero.mp h)
      subst hr1
      unfold compareRest
      cases r2 with
      | nil => simp
      | cons b l =>
        have h1 : min chunkSize ([] : List Nat).length ≠ min chunkSize (b :: l).length := by
          simp only [List.length_nil, Nat.min_zero, List.length_cons, chunkSize]
          omega
        rw [dif_pos h1]
        simp only [Bool.false_eq_true, false_iff]
        intro he
        exact List.cons_ne_nil b l he.symm
    | succ n ih =>
      intro r1 r2 hlen
      unfold compareRest
      by_cases h1 : min chunkSize r1.length ≠ min chunkSize r2.length
      · rw [dif_pos h1]
        simp only [Bool.false_eq_true, false_iff]
        intro he
        subst he
        exact h1 rfl
      · rw [dif_neg h1]
        by_cases h2 : r1.take (min chunkSize r1.length) ≠ r2.take (min chunkSize r2.length)
        · rw [if_pos h2]
          simp only [Bool.false_eq_true, false_iff]
          intro he
          subst he
          exact h2 rfl
        · rw [if_neg h2]
          by_cases h3 : r1.isEmpty ∧ r2.isEmpty
          · rw [dif_pos h3]
            simp only [List.isEmpty_iff] at h3
            obtain ⟨e1, e2⟩ := h3
            subst e1; subst e2
            simp
          · rw [dif_neg h3]
            push_neg at h1
            simp only [List.isEmpty_iff, not_and_or] at h3
            have hr1ne : r1 ≠ [] := by
              intro he
              subst he
              simp only [List.length_nil, Nat.min_zero] at h1
              have hr2 : r2 = [] := by
                cases hc : r2 with
                | nil => rfl
                | cons b l =>
                  exfalso
                  rw [hc] at h1
                  simp only [List.length_cons, chunkSize] at h1
                  omega
              cases h3 with
              | inl hc => exact hc rfl
              | inr hc => exact hc hr2
            have hpos : 0 < min chunkSize r1.length := by
              have : 0 < r1.length := List.length_pos.mpr hr1ne
              simp only [chunkSize]
              omega
            have hrec := ih (r1.drop (min chunkSize r1.length)) (r2.drop (min chunkSize r2.length))
              (by simp only [List.length_drop]; omega)
            rw [hrec]
            push_neg at h2
            constructor
            · intro hd
              have hsplit := List.take_append_drop (min chunkSize r1.length) r1
              rw [← hsplit, h2, hd, List.take_append_drop]
            · intro he
              subst he
              rfl
  intro r1 r2
  exact main r1.length r1 r2 le_rfl

theorem filesAreIdentical_eq_true_iff (c1 c2 : List Nat) :
    filesAreIdentical c1 c2 = true ↔ c1 = c2 := by
  unfold filesAreIdentical
  by_cases hlen : c1.length ≠ c2.length
  · rw [if_pos hlen]
    simp only [Bool.false_eq_true, false_iff]
    intro he
    exact hlen (he ▸ rfl)
  · rw [if_neg hlen]
    push_neg at hlen
    by_cases htl : (c1.take (if c1.length < headerBytes then c1.length else headerBytes)).length ≠
        (c2.take (if c1.length < headerBytes then c1.length else headerBytes)).length
    · exact absurd (by simp [List.length_take, hlen]) htl
    · rw [if_neg htl]
      by_cases htk : c1.take (if c1.length < headerBytes then c1.length else headerBytes) ≠
          c2.take (if c1.length < headerBytes then c1.length else headerBytes)
      · rw [if_pos htk]
        simp only [Bool.false_eq_true, false_iff]
        intro he
        subst he
        exact htk rfl
      · rw [if_neg htk]
        push_neg at htk
        by_cases hsz : c1.length ≤ (if c1.length < headerBytes then c1.length else headerBytes)
        · rw [if_pos hsz]
          have hmin : (if c1.length < headerBytes then c1.length else headerBytes) = c1.length := by
            by_cases hc : c1.length < headerBytes
            · rw [if_pos hc]
            · rw [if_neg hc] at hsz ⊢
              omega
          rw [hmin] at htk
          rw [List.take_length, hlen, List.take_length] at htk
          simp [htk]
        · rw [if_neg hsz]
          rw [compareRest_eq_true_iff]
          constructor
          · intro hd
            calc c1 = c1.take (if c1.length < headerBytes then c1.length else headerBytes) ++
                  c1.drop (if c1.length < headerBytes then c1.length else headerBytes) :=
                (List.take_append_drop _ c1).symm
              _ = c2.take (if c1.length < headerBytes then c1.length else headerBytes) ++
                  c2.drop (if c1.length < headerBytes then c1.length else headerBytes) := by
                rw [htk, hd]
              _ = c2 := List.take_append_drop _ c2
          · intro he
            subst he
            rfl

/-! ## Time model (`time.Time`) -/

/-- Model of `time.Time`: the absolute instant (seconds since the Unix
epoch) together with the calendar fields the time exhibits in its own
location.  `Before`/`Equal` compare instants; `IsZero` holds exactly for
the instant of the zero `time.Time` (January 1, year 1, 00:00:00 UTC). -/
structure Time where
  instant : Int
  year : Nat
  month : Nat
  day : Nat
  hour : Nat
  minute : Nat
  second : Nat
deriving DecidableEq, Repr

/-- The instant of the zero `time.Time`: seconds from 0001-01-01T00:00:00Z
to the Unix epoch, negated. -/
def zeroInstant : Int := -62135596800

/-- The zero `time.Time`. -/
def zeroTimeV : Time := ⟨zeroInstant, 1, 1, 1, 0, 0, 0⟩

/-- `t.IsZero()`. -/
def Time.isZero (t : Time) : Bool := t.instant = zeroInstant

/-- Days from the Unix epoch to the civil date `y-m-d` (proleptic
Gregorian), used to give `time.Date` an honest instant. -/
def daysFromCivil (y : Int) (m d : Nat) : Int :=
  let yy : Int := if m ≤ 2 then y - 1 else y
  let era : Int := Int.fdiv yy 400
  let yoe : Int := yy - era * 400
  let doy : Int := (153 * ((m : Int) + (if m > 2 then -3 else 9)) + 2) / 5 + (d : Int) - 1
  let doe : Int := yoe * 365 + yoe / 4 - yoe / 100 + doy
  era * 146097 + doe - 719468

/-- `time.Date(y, mo, d, h, mi, s, 0, loc)` for a fixed-offset location
(`off` seconds east of UTC) and in-range components. -/
def timeDate (y mo d h mi s : Nat) (off : Int) : Time :=
  ⟨daysFromCivil (y : Int) mo d * 86400 + (h : Int) * 3600 + (mi : Int) * 60 + (s : Int) - off,
    y, mo, d, h, mi, s⟩

/-! ## `createdat` data model -/

/-- `createdat.Source`. -/
inductive Source where
  | metadata
  | filename
  | mtime
  | unknown
deriving DecidableEq, Repr

/-- `createdat.Result`. -/
structure Result where
  createdAt : Time
  source : Source
deriving DecidableEq, Repr

/-- `createdat.DetailedResult`. -/
structure DetailedResult where
  best : Result
  metadata : Time
  filename : Time
  filestat : Time
deriving DecidableEq, Repr

/-! ## Canonical member choice (`reconcile.pickOldest`) -/

/-- The accumulator loop of `pickOldest`: Go iterates the member list
keeping the current best path and best time, skipping members with a zero
timestamp, and replacing the current best when the new time is strictly
earlier or equal with a lexicographically smaller path (the `best == ""`
and `bestTime.IsZero()` disjuncts fire on the first non-zero member). -/
def pickOldestLoop (details : String → DetailedResult) :
    List String → String × Time → String × Time
  | [], acc => acc
  | p :: rest, (best, bestTime) =>
    if ((details p).best.createdAt).isZero then pickOldestLoop details rest (best, bestTime)
    else if best = "" ∨ bestTime.isZero ∨
        ((details p).best.createdAt).instant < bestTime.instant ∨
        (((details p).best.createdAt).instant = bestTime.instant ∧ p < best) then
      pickOldestLoop details rest (p, (details p).best.createdAt)
    else pickOldestLoop details rest (best, bestTime)

/-- `reconcile.pickOldest`.  The Go fallback indexes `paths[0]`, so it is
only ever called on non-empty clusters; the empty-list value `""` is a
modelling default. -/
def pickOldest (paths : List String) (details : String → DetailedResult) : String :=
  if (pickOldestLoop details paths ("", zeroTimeV)).1 ≠ "" then
    (pickOldestLoop details paths ("", zeroTimeV)).1
  else
    match paths with
    | [] => ""
    | p :: rest => rest.foldl (fun b q => if q < b then q else b) p

/-- The lexicographic order on (path, timestamp) pairs — earlier instant
first, then smaller path — used to state what `pickOldest` chooses. -/
def pairLE (x y : String × Time) : Prop :=
  x.2.instant < y.2.instant ∨ (x.2.instant = y.2.instant ∧ x.1 ≤ y.1)

/-- What C3 claims `pickOldest` returns: a member of the cluster; among
members with a non-zero best timestamp the earliest one, with ties on the
timestamp broken by the lexicographically smallest path (so a zero-stamped
member never wins while a non-zero one exists); the lexicographically
smallest member when every timestamp is zero. -/
def isCanonicalChoice (details : String → DetailedResult) (l : List String) (p : String) :
    Prop :=
  p ∈ l ∧
  ((∃ q ∈ l, (details q).best.createdAt.isZero = false) →
    ((details p).best.createdAt.isZero = false ∧
      ∀ q ∈ l, (details q).best.createdAt.isZero = false →
        pairLE (p, (details p).best.createdAt) (q, (details q).best.createdAt))) ∧
  ((∀ q ∈ l, (details q).best.createdAt.isZero = true) → ∀ q ∈ l, p ≤ q)

theorem pairLE_refl (x : String × Time) : pairLE x x := Or.inr ⟨rfl, le_refl _⟩

theorem pairLE_trans {x y z : String × Time} (h1 : pairLE x y) (h2 : pairLE y z) :
    pairLE x z := by
  unfold pairLE at *
  rcases h1 with h1 | ⟨h1, h1s⟩ <;> rcases h2 with h2 | ⟨h2, h2s⟩
  · exact Or.inl (lt_trans h1 h2)
  · exact Or.inl (by omega)
  · exact Or.inl (by omega)
  · exact Or.inr ⟨by omega, le_trans h1s h2s⟩

theorem pickOldestLoop_nz (details : String → DetailedResult) :
    ∀ (l : List String) (b : String) (bt : Time),
    (∀ p ∈ l, p ≠ "") → b ≠ "" → bt.isZero = false →
    ((pickOldestLoop details l (b, bt)).1 ≠ "" ∧
     (pickOldestLoop details l (b, bt)).2.isZero = false) ∧
    (pickOldestLoop details l (b, bt) = (b, bt) ∨
      ((pickOldestLoop details l (b, bt)).1 ∈ l ∧
       (pickOldestLoop details l (b, bt)).2 =
         (details (pickOldestLoop details l (b, bt)).1).best.createdAt)) ∧
    pairLE (pickOldestLoop details l (b, bt)) (b, bt) ∧
    (∀ q ∈ l, (details q).best.createdAt.isZero = false →
      pairLE (pickOldestLoop details l (b, bt)) (q, (details q).best.createdAt)) := by
  intro l
  induction l with
  | nil =>
    intro b bt h0 hb hbt
    exact ⟨⟨hb, hbt⟩, Or.inl rfl, pairLE_refl _, by intro q hq; simp at hq⟩
  | cons p rest ih =>
    intro b bt h0 hb hbt
    have h0r : ∀ x ∈ rest, x ≠ "" := fun x hx => h0 x (List.mem_cons_of_mem p hx)
    simp only [pickOldestLoop]
    by_cases hz : ((details p).best.createdAt).isZero
    · rw [if_pos hz]
      obtain ⟨hA, hB, hC, hD⟩ := ih b bt h0r hb hbt
      refine ⟨hA, ?_, hC, ?_⟩
      · rcases hB with hB | hB
        · exact Or.inl hB
        · exact Or.inr ⟨List.mem_cons_of_mem p hB.1, hB.2⟩
      · intro q hq hqz
        rcases List.mem_cons.mp hq with hq | hq
        · subst hq
          rw [hz] at hqz
          cases hqz
        · exact hD q hq hqz
    · rw [if_neg hz]
      by_cases hc : b = "" ∨ bt.isZero ∨
          ((details p).best.createdAt).instant < bt.instant ∨
          (((details p).best.createdAt).instant = bt.instant ∧ p < b)
      · rw [if_pos hc]
        have hpne : p ≠ "" := h0 p (List.mem_cons_self p rest)
        have hzf : ((details p).best.createdAt).isZero = false := by
          cases hzc : ((details p).best.createdAt).isZero with
          | true => exact absurd hzc hz
          | false => rfl
        obtain ⟨hA, hB, hC, hD⟩ := ih p ((details p).best.createdAt) h0r hpne hzf
        have hpb : pairLE (p, (details p).best.createdAt) (b, bt) := by
          rcases hc with hc | hc | hc | hc
          · exact absurd hc hb
          · rw [hc] at hbt; cases hbt
          · exact Or.inl hc
          · exact Or.inr ⟨hc.1, le_of_lt hc.2⟩
        refine ⟨hA, ?_, pairLE_trans hC hpb, ?_⟩
        · rcases hB with hB | hB
          · rw [hB]
            exact Or.inr ⟨List.mem_cons_self p rest, rfl⟩
          · exact Or.inr ⟨List.mem_cons_of_mem p hB.1, hB.2⟩
        · intro q hq hqz
          rcases List.mem_cons.mp hq with hq | hq
          · subst hq
            exact hC
          · exact hD q hq hqz
      · rw [if_neg hc]
        push_neg at hc
        obtain ⟨hc1, hc2, hc3, hc4⟩ := hc
        obtain ⟨hA, hB, hC, hD⟩ := ih b bt h0r hb hbt
        have hbp : pairLE (b, bt) (p, (details p).best.createdAt) := by
          rcases lt_or_eq_of_le hc3 with hlt | heq
          · exact Or.inl hlt
          · exact Or.inr ⟨heq, hc4 heq.symm⟩
        refine ⟨hA, ?_, hC, ?_⟩
        · rcases hB with hB | hB
          · exact Or.inl hB
          · exact Or.inr ⟨List.mem_cons_of_mem p hB.1, hB.2⟩
        · intro q hq hqz
          rcases List.mem_cons.mp hq with hq | hq
          · subst hq
            exact pairLE_trans hC hbp
          · exact hD q hq hqz

theorem pickOldestLoop_init (details : String → DetailedResult) :
    ∀ (l : List String), (∀ p ∈ l, p ≠ "") →
    ((∀ q ∈ l, (details q).best.createdAt.isZero = true) ∧
       pickOldestLoop details l ("", zeroTimeV) = ("", zeroTimeV)) ∨
    ((pickOldestLoop details l ("", zeroTimeV)).1 ∈ l ∧
     (pickOldestLoop details l ("", zeroTimeV)).2 =
       (details (pickOldestLoop details l ("", zeroTimeV)).1).best.createdAt ∧
     (pickOldestLoop details l ("", zeroTimeV)).2.isZero = false ∧
     (∀ q ∈ l, (details q).best.createdAt.isZero = false →
        pairLE (pickOldestLoop details l ("", zeroTimeV))
          (q, (details q).best.createdAt))) := by
  intro l
  induction l with
  | nil =>
    intro h0
    exact Or.inl ⟨by intro q hq; simp at hq, rfl⟩
  | cons p rest ih =>
    intro h0
    have h0r : ∀ x ∈ rest, x ≠ "" := fun x hx => h0 x (List.mem_cons_of_mem p hx)
    simp only [pickOldestLoop]
    by_cases hz : ((details p).best.createdAt).isZero
    · rw [if_pos hz]
      rcases ih h0r with ⟨hall, heq⟩ | ⟨hm, ht, hnz, hmin⟩
      · refine Or.inl ⟨?_, heq⟩
        intro q hq
        rcases List.mem_cons.mp hq with hq | hq
        · subst hq; exact hz
        · exact hall q hq
      · refine Or.inr ⟨List.mem_cons_of_mem p hm, ht, hnz, ?_⟩
        intro q hq hqz
        rcases List.mem_cons.mp hq with hq | hq
        · subst hq
          rw [hz] at hqz
          cases hqz
        · exact hmin q hq hqz
    · rw [if_neg hz]
      simp only [true_or, if_true]
      have hpne : p ≠ "" := h0 p (List.mem_cons_self p rest)
      have hzf : ((details p).best.createdAt).isZero = false := by
        cases hzc : ((details p).best.createdAt).isZero with
        | true => exact absurd hzc hz
        | false => rfl
      obtain ⟨hA, hB, hC, hD⟩ := pickOldestLoop_nz details rest p ((details p).best.createdAt)
        h0r hpne hzf
      have hmem : (pickOldestLoop details rest (p, (details p).best.createdAt)).1 ∈ p :: rest ∧
          (pickOldestLoop details rest (p, (details p).best.createdAt)).2 =
            (details (pickOldestLoop details rest (p, (details p).best.createdAt)).1).best.createdAt := by
        rcases hB with hB | hB
        · rw [hB]
          exact ⟨List.mem_cons_self p rest, rfl⟩
        · exact ⟨List.mem_cons_of_mem p hB.1, hB.2⟩
      refine Or.inr ⟨hmem.1, hmem.2, hA.2, ?_⟩
      intro q hq hqz
      rcases List.mem_cons.mp hq with hq | hq
      · subst hq
        exact hC
      · exact hD q hq hqz

theorem foldl_strmin (rest : List String) : ∀ (p : String),
    (rest.foldl (fun b q => if q < b then q else b) p) ∈ p :: rest ∧
    ∀ q ∈ p :: rest, (rest.foldl (fun b q => if q < b then q else b) p) ≤ q := by
  induction rest with
  | nil =>
    intro p
    refine ⟨List.mem_cons_self p [], ?_⟩
    intro q hq
    rcases List.mem_cons.mp hq with hq | hq
    · subst hq; exact le_refl _
    · simp at hq
  | cons r rs ih =>
    intro p
    simp only [List.foldl_cons]
    by_cases hr : r < p
    · rw [if_pos hr]
      obtain ⟨hm, hmin⟩ := ih r
      constructor
      · rcases List.mem_cons.mp hm with hm | hm
        · rw [hm]; exact List.mem_cons_of_mem p (List.mem_cons_self r rs)
        · exact List.mem_cons_of_mem p (List.mem_cons_of_mem r hm)
      · intro q hq
        rcases List.mem_cons.mp hq with hq | hq
        · subst hq
          exact le_trans (hmin r (List.mem_cons_self r rs)) (le_of_lt hr)
        · exact hmin q hq
    · rw [if_neg hr]
      obtain ⟨hm, hmin⟩ := ih p
      constructor
      · rcases List.mem_cons.mp hm with hm | hm
        · rw [hm]; exact List.mem_cons_self p (r :: rs)
        · exact List.mem_cons_of_mem p (List.mem_cons_of_mem r hm)
      · intro q hq
        rcases List.mem_cons.mp hq with hq | hq
        · subst hq
          exact hmin _ (List.mem_cons_self _ _)
        · rcases List.mem_cons.mp hq with hq | hq
          · subst hq
            exact le_trans (hmin p (List.mem_cons_self p rs)) (not_lt.mp hr)
          · exact hmin q (List.mem_cons_of_mem p hq)

theorem pickOldest_canonical (details : String → DetailedResult) (l : List String)
    (hne : l ≠ []) (h0 : ∀ p ∈ l, p ≠ "") :
    isCanonicalChoice details l (pickOldest l details) := by
  unfold pickOldest
  rcases pickOldestLoop_init details l h0 with ⟨hall, heq⟩ | ⟨hm, ht, hnz, hmin⟩
  · rw [heq]
    simp only [ne_eq, not_true_eq_false, if_false]
    cases l with
    | nil => exact absurd rfl hne
    | cons p rest =>
      obtain ⟨hm, hminall⟩ := foldl_strmin rest p
      refine ⟨hm, ?_, ?_⟩
      · intro ⟨q, hq, hqz⟩
        rw [hall q hq] at hqz
        cases hqz
      · intro _ q hq
        exact hminall q hq
  · have hne1 : (pickOldestLoop details l ("", zeroTimeV)).1 ≠ "" :=
      h0 _ hm
    rw [if_pos hne1]
    refine ⟨hm, ?_, ?_⟩
    · intro _
      refine ⟨by rw [← ht]; exact hnz, ?_⟩
      intro q hq hqz
      have hple := hmin q hq hqz
      rw [← ht]
      exact hple
    · intro hall
      have hzz := hall _ hm
      rw [← ht] at hzz
      rw [hzz] at hnz
      cases hnz

theorem isCanonicalChoice_unique (details : String → DetailedResult) (l : List String)
    (p p' : String) (h : isCanonicalChoice details l p) (h' : isCanonicalChoice details l p') :
    p = p' := by
  obtain ⟨hm, hnz, hz⟩ := h
  obtain ⟨hm', hnz', hz'⟩ := h'
  by_cases hex : ∃ q ∈ l, (details q).best.createdAt.isZero = false
  · obtain ⟨ha, hb⟩ := hnz hex
    obtain ⟨ha', hb'⟩ := hnz' hex
    have h1 := hb p' hm' ha'
    have h2 := hb' p hm ha
    unfold pairLE at h1 h2
    simp only at h1 h2
    rcases h1 with h1 | ⟨h1i, h1s⟩ <;> rcases h2 with h2 | ⟨h2i, h2s⟩
    · omega
    · omega
    · omega
    · exact le_antisymm h1s h2s
  · push_neg at hex
    have hall : ∀ q ∈ l, (details q).best.createdAt.isZero = true := by
      intro q hq
      cases hc : (details q).best.createdAt.isZero with
      | true => rfl
      | false => exact absurd hc (hex q hq)
    exact le_antisymm (hz hall p' hm') (hz' hall p hm)

theorem isCanonicalChoice_perm (details : String → DetailedResult) {l l' : List String}
    (hperm : l.Perm l') (p : String) :
    isCanonicalChoice details l p ↔ isCanonicalChoice details l' p := by
  unfold isCanonicalChoice
  constructor
  · rintro ⟨h1, h2, h3⟩
    refine ⟨hperm.mem_iff.mp h1, ?_, ?_⟩
    · rintro ⟨q, hq, hqz⟩
      obtain ⟨ha, hb⟩ := h2 ⟨q, hperm.mem_iff.mpr hq, hqz⟩
      exact ⟨ha, fun r hr hrz => hb r (hperm.mem_iff.mpr hr) hrz⟩
    · intro hall q hq
      exact h3 (fun r hr => hall r (hperm.mem_iff.mp hr)) q (hperm.mem_iff.mpr hq)
  · rintro ⟨h1, h2, h3⟩
    refine ⟨hperm.mem_iff.mpr h1, ?_, ?_⟩
    · rintro ⟨q, hq, hqz⟩
      obtain ⟨ha, hb⟩ := h2 ⟨q, hperm.mem_iff.mp hq, hqz⟩
      exact ⟨ha, fun r hr hrz => hb r (hperm.mem_iff.mp hr) hrz⟩
    · intro hall q hq
      exact h3 (fun r hr => hall r (hperm.mem_iff.mpr hr)) q (hperm.mem_iff.mp hq)

/-- C1: for every pair of file paths whose stats and reads succeed (so the
two byte contents below are exactly what is on disk), `filesAreIdentical`
returns true if and only if the two files' byte contents are identical —
never a false positive, never a false negative. -/
theorem claim_C1_filesAreIdentical_iff (c1 c2 : List Nat) :
    filesAreIdentical c1 c2 = true ↔ c1 = c2 :=
  filesAreIdentical_eq_true_iff c1 c2

/-- C3: on every non-empty duplicate cluster of real (non-empty) paths,
`pickOldest` picks the member with the earliest non-zero best timestamp,
ties broken by lexicographically smallest path; a zero-stamped member never
wins while a non-zero one exists; when all stamps are zero the
lexicographically smallest path wins; and the choice is invariant under
permutation of the member list. -/
theorem claim_C3_pickOldest (details : String → DetailedResult) (l : List String)
    (hne : l ≠ []) (h0 : ∀ p ∈ l, p ≠ "") :
    isCanonicalChoice details l (pickOldest l details) ∧
    ∀ l', l.Perm l' → pickOldest l' details = pickOldest l details := by
  refine ⟨pickOldest_canonical details l hne h0, ?_⟩
  intro l' hperm
  have hne' : l' ≠ [] := by
    intro he
    subst he
    exact hne hperm.eq_nil
  have h0' : ∀ p ∈ l', p ≠ "" := fun p hp => h0 p (hperm.mem_iff.mpr hp)
  have c2 := pickOldest_canonical details l' hne' h0'
  have c2' := (isCanonicalChoice_perm details hperm _).mpr c2
  exact isCanonicalChoice_unique details l _ _ c2' (pickOldest_canonical details l hne h0)

/-- Concrete detail map for the C3 witness: `a.jpg` carries a
filename-derived timestamp, `b.jpg` carries no timestamp evidence. -/
def detailsC3 : String → DetailedResult := fun p =>
  if p = "a.jpg" then
    ⟨⟨timeDate 2020 1 1 0 0 0 0, Source.filename⟩, zeroTimeV, timeDate 2020 1 1 0 0 0 0,
      zeroTimeV⟩
  else ⟨⟨zeroTimeV, Source.unknown⟩, zeroTimeV, zeroTimeV, zeroTimeV⟩

/-- Witness for C3 on the cluster `{b.jpg, a.jpg}`. -/
theorem claim_C3_pickOldest_witness :
    isCanonicalChoice detailsC3 ["b.jpg", "a.jpg"]
      (pickOldest ["b.jpg", "a.jpg"] detailsC3) ∧
    ∀ l', (["b.jpg", "a.jpg"] : List String).Perm l' →
      pickOldest l' detailsC3 = pickOldest ["b.jpg", "a.jpg"] detailsC3 :=
  claim_C3_pickOldest detailsC3 ["b.jpg", "a.jpg"] (by decide) (by decide)

/-! ## Duplicate resolver (`reconcile.DedupeSources`) -/

/-- `reconcile.Action`. -/
inductive Action where
  | copy
  | copyRenamed
  | copied
  | copiedRenamed
  | skippedIdentical
  | skippedDuplicateSrc
  | failed
deriving DecidableEq, Repr

/-- `reconcile.Decision` (the `Error` field is omitted: every embedded
call is the success case and Go leaves it `nil` there). -/
structure Decision where
  sourcePath : String
  destinationPath : String := ""
  finalDestinationPath : String := ""
  action : Action
  duplicateOf : String := ""
deriving DecidableEq, Repr

/-- Append `p` to the group keyed `k` of an association list of groups,
preserving first-occurrence key order — the rendering of
`m[k] = append(m[k], p)` on a Go map whose groups are consumed
order-insensitively. -/
def insertKey {κ : Type} [DecidableEq κ] (k : κ) (p : String) :
    List (κ × List String) → List (κ × List String)
  | [] => [(k, [p])]
  | (k0, ms) :: rest =>
    if k = k0 then (k0, ms ++ [p]) :: rest else (k0, ms) :: insertKey k p rest

/-- Group a list by a key function (`bySize` and `headerGroups` in Go). -/
def groupByKey {κ : Type} [DecidableEq κ] (key : String → κ) (l : List String) :
    List (κ × List String) :=
  l.foldl (fun acc p => insertKey (key p) p acc) []

/-- The fingerprint of `reconcile.headerHash`: SHA-256 over the first
`min headerBytes size` bytes of the file (`size` from the sizes map; the
`io.CopyN` read stops early at EOF, which `take` reproduces).  Modelled by
the hashed prefix itself — an injective idealisation of the digest. -/
def headerOf (content : String → List Nat) (size : Nat) (p : String) : List Nat :=
  (content p).take (min headerBytes size)

/-- One step of the exact-equality clustering: Go walks the current
cluster-representative list in order, adding `p` to the first cluster
whose representative compares byte-identical, else appending the new
cluster `(p, [p])`.  Also returns the (probe, representative) byte
comparisons performed. -/
def assignGo (content : String → List Nat) :
    List (String × List String) → String →
    List (String × List String) × List (String × String)
  | [], p => ([(p, [p])], [])
  | (rep, ms) :: rest, p =>
    if filesAreIdentical (content p) (content rep) then
      ((rep, ms ++ [p]) :: rest, [(p, rep)])
    else
      ((rep, ms) :: (assignGo content rest p).1, (p, rep) :: (assignGo content rest p).2)

/-- Exact-equality clusters of a header group, with the byte comparisons
performed while building them. -/
def clustersC (content : String → List Nat) (cands : List String) :
    List (String × List String) × List (String × String) :=
  cands.foldl (fun acc p => ((assignGo content acc.1 p).1, acc.2 ++ (assignGo content acc.1 p).2))
    ([], [])

/-- Aggregated outcome of the duplicate resolver, with instrumentation:
kept canonical paths, skip records `(member, canonical)`, the pairwise
byte comparisons performed, and the header hashes computed (each path with
the size whose group it was hashed in). -/
structure DedupeOut where
  kept : List String
  skips : List (String × String)
  compared : List (String × String)
  hashed : List (String × Nat)
deriving Repr

/-- Outcome of one header group: a unique candidate is kept outright,
otherwise each exact cluster keeps its `pickOldest` canonical member and
skips the rest, recording the canonical path for each skipped member. -/
def headerGroupOut (content : String → List Nat) (details : String → DetailedResult)
    (cands : List String) : DedupeOut :=
  match cands with
  | [p] => ⟨[p], [], [], []⟩
  | _ =>
    ⟨(clustersC content cands).1.map (fun c => pickOldest c.2 details),
     (clustersC content cands).1.flatMap (fun c =>
       (c.2.filter (fun m => m ≠ pickOldest c.2 details)).map
         (fun m => (m, pickOldest c.2 details))),
     (clustersC content cands).2, []⟩

/-- Outcome of one size group: a unique path is kept outright with no
hashing; otherwise every path is header-hashed and the header groups are
processed independently. -/
def sizeGroupOut (content : String → List Nat) (details : String → DetailedResult)
    (size : Nat) (paths : List String) : DedupeOut :=
  match paths with
  | [p] => ⟨[p], [], [], []⟩
  | _ =>
    ⟨(groupByKey (fun p => headerOf content size p) paths).flatMap
       (fun hg => (headerGroupOut content details hg.2).kept),
     (groupByKey (fun p => headerOf content size p) paths).flatMap
       (fun hg => (headerGroupOut content details hg.2).skips),
     (groupByKey (fun p => headerOf content size p) paths).flatMap
       (fun hg => (headerGroupOut content details hg.2).compared),
     paths.map (fun p => (p, size))⟩

/-- The grouping/clustering core of `DedupeSources` over all size groups. -/
def dedupeCore (content : String → List Nat) (details : String → DetailedResult)
    (sizes : String → Nat) (sources : List String) : DedupeOut :=
  ⟨(groupByKey sizes sources).flatMap (fun g => (sizeGroupOut content details g.1 g.2).kept),
   (groupByKey sizes sources).flatMap (fun g => (sizeGroupOut content details g.1 g.2).skips),
   (groupByKey sizes sources).flatMap (fun g => (sizeGroupOut content details g.1 g.2).compared),
   (groupByKey sizes sources).flatMap (fun g => (sizeGroupOut content details g.1 g.2).hashed)⟩

/-- The decision-emitting loop body of `DedupeSources`: a source in the
skip set becomes `skipped_duplicate_source` with its canonical path, a kept
source becomes `copy`, and the unreachable fallback is `failed`. -/
def decisionFor (kept : List String) (skips : List (String × String)) (p : String) :
    Decision :=
  match skips.lookup p with
  | some canon =>
    { sourcePath := p, action := Action.skippedDuplicateSrc, duplicateOf := canon }
  | none =>
    if kept.contains p then { sourcePath := p, action := Action.copy }
    else { sourcePath := p, action := Action.failed }

/-- `reconcile.DedupeSources` in its success case (every size known, every
stat/read succeeds): the kept sources and one `Decision` per source, in
source order. -/
def DedupeSources (content : String → List Nat) (sources : List String)
    (details : String → DetailedResult) (sizes : String → Nat) :
    List String × List Decision :=
  (sources.filter (fun p =>
     ((dedupeCore content details sizes sources).skips.lookup p).isNone &&
     (dedupeCore content details sizes sources).kept.contains p),
   sources.map (decisionFor (dedupeCore content details sizes sources).kept
     (dedupeCore content details sizes sources).skips))

/-- The exact-content clusters the resolver builds, flattened across size
and header groups (singleton groups appear as singleton clusters). -/
def allClusters (content : String → List Nat) (sizes : String → Nat)
    (sources : List String) : List (List String) :=
  (groupByKey sizes sources).flatMap (fun g =>
    (groupByKey (fun p => headerOf content g.1 p) g.2).flatMap (fun hg =>
      (clustersC content hg.2).1.map (fun c => c.2)))

theorem pickOldest_singleton (details : String → DetailedResult) (p : String) :
    pickOldest [p] details = p := by
  unfold pickOldest
  by_cases hz : ((details p).best.createdAt).isZero
  · have hloop : pickOldestLoop details [p] ("", zeroTimeV) = ("", zeroTimeV) := by
      simp [pickOldestLoop, hz]
    rw [hloop]
    simp
  · have hloop : pickOldestLoop details [p] ("", zeroTimeV) =
        (p, (details p).best.createdAt) := by
      simp [pickOldestLoop, hz]
    rw [hloop]
    by_cases hp : p = ""
    · subst hp
      simp
    · simp [hp]

theorem pickOldestLoop_mem (details : String → DetailedResult) :
    ∀ (l : List String) (b : String) (bt : Time),
    pickOldestLoop details l (b, bt) = (b, bt) ∨ (pickOldestLoop details l (b, bt)).1 ∈ l := by
  intro l
  induction l with
  | nil => intro b bt; exact Or.inl rfl
  | cons p rest ih =>
    intro b bt
    simp only [pickOldestLoop]
    by_cases hz : ((details p).best.createdAt).isZero
    · rw [if_pos hz]
      rcases ih b bt with h | h
      · exact Or.inl h
      · exact Or.inr (List.mem_cons_of_mem p h)
    · rw [if_neg hz]
      by_cases hc : b = "" ∨ bt.isZero ∨
          ((details p).best.createdAt).instant < bt.instant ∨
          (((details p).best.createdAt).instant = bt.instant ∧ p < b)
      · rw [if_pos hc]
        rcases ih p ((details p).best.createdAt) with h | h
        · refine Or.inr ?_
          rw [h]
          exact List.mem_cons_self p rest
        · exact Or.inr (List.mem_cons_of_mem p h)
      · rw [if_neg hc]
        rcases ih b bt with h | h
        · exact Or.inl h
        · exact Or.inr (List.mem_cons_of_mem p h)

theorem pickOldest_mem (details : String → DetailedResult) (l : List String) (hne : l ≠ []) :
    pickOldest l details ∈ l := by
  unfold pickOldest
  by_cases hb : (pickOldestLoop details l ("", zeroTimeV)).1 ≠ ""
  · rw [if_pos hb]
    rcases pickOldestLoop_mem details l "" zeroTimeV with h | h
    · exact absurd (by rw [h]) hb
    · exact h
  · rw [if_neg hb]
    cases l with
    | nil => exact absurd rfl hne
    | cons p rest => exact (foldl_strmin rest p).1

theorem flatMap_insertKey {κ : Type} [DecidableEq κ] (k : κ) (p : String)
    (acc : List (κ × List String)) :
    ((insertKey k p acc).flatMap (fun g => g.2)).Perm ((acc.flatMap (fun g => g.2)) ++ [p]) := by
  induction acc with
  | nil => simp [insertKey]
  | cons g rest ih =>
    obtain ⟨k0, ms⟩ := g
    simp only [insertKey]
    by_cases hk : k = k0
    · rw [if_pos hk]
      simp only [List.flatMap_cons]
      calc (ms ++ [p]) ++ rest.flatMap (fun g => g.2)
          = ms ++ ([p] ++ rest.flatMap (fun g => g.2)) := by rw [List.append_assoc]
        _ ~ ms ++ (rest.flatMap (fun g => g.2) ++ [p]) :=
            List.Perm.append_left ms List.perm_append_comm
        _ = (ms ++ rest.flatMap (fun g => g.2)) ++ [p] := by rw [List.append_assoc]
    · rw [if_neg hk]
      simp only [List.flatMap_cons]
      calc ms ++ (insertKey k p rest).flatMap (fun g => g.2)
          ~ ms ++ (rest.flatMap (fun g => g.2) ++ [p]) := List.Perm.append_left ms ih
        _ = (ms ++ rest.flatMap (fun g => g.2)) ++ [p] := by rw [List.append_assoc]

theorem groupByKey_flatMap_perm {κ : Type} [DecidableEq κ] (key : String → κ)
    (l : List String) : ((groupByKey key l).flatMap (fun g => g.2)).Perm l := by
  have aux : ∀ (l : List String) (acc : List (κ × List String)),
      ((l.foldl (fun acc p => insertKey (key p) p acc) acc).flatMap (fun g => g.2)).Perm
        ((acc.flatMap (fun g => g.2)) ++ l) := by
    intro l
    induction l with
    | nil => intro acc; simp
    | cons p rest ih =>
      intro acc
      simp only [List.foldl_cons]
      calc ((rest.foldl (fun acc p => insertKey (key p) p acc)
              (insertKey (key p) p acc)).flatMap (fun g => g.2))
          ~ ((insertKey (key p) p acc).flatMap (fun g => g.2)) ++ rest := ih _
        _ ~ ((acc.flatMap (fun g => g.2)) ++ [p]) ++ rest :=
            List.Perm.append_right rest (flatMap_insertKey (key p) p acc)
        _ = (acc.flatMap (fun g => g.2)) ++ (p :: rest) := by rw [List.append_assoc]; rfl
  simpa using aux l []

theorem insertKey_key_eq {κ : Type} [DecidableEq κ] (key : String → κ) (k : κ) (p : String)
    (hp : key p = k) :
    ∀ (acc : List (κ × List String)), (∀ g ∈ acc, ∀ m ∈ g.2, key m = g.1) →
    ∀ g ∈ insertKey k p acc, ∀ m ∈ g.2, key m = g.1 := by
  intro acc
  induction acc with
  | nil =>
    intro _ g hg m hm
    simp only [insertKey, List.mem_singleton] at hg
    subst hg
    simp only [List.mem_singleton] at hm
    subst hm
    exact hp
  | cons g0 rest ih =>
    obtain ⟨k0, ms⟩ := g0
    intro hacc g hg m hm
    have h0 := hacc (k0, ms) (List.mem_cons_self _ _)
    simp only [insertKey] at hg
    by_cases hk : k = k0
    · rw [if_pos hk] at hg
      rcases List.mem_cons.mp hg with hg | hg
      · subst hg
        simp only at hm ⊢
        rcases List.mem_append.mp hm with hm | hm
        · exact h0 m hm
        · simp only [List.mem_singleton] at hm
          subst hm
          rw [hp, hk]
      · exact hacc g (List.mem_cons_of_mem _ hg) m hm
    · rw [if_neg hk] at hg
      rcases List.mem_cons.mp hg with hg | hg
      · subst hg
        exact h0 m hm
      · exact ih (fun g' hg' => hacc g' (List.mem_cons_of_mem _ hg')) g hg m hm

theorem groupByKey_key_eq {κ : Type} [DecidableEq κ] (key : String → κ) (l : List String) :
    ∀ g ∈ groupByKey key l, ∀ m ∈ g.2, key m = g.1 := by
  have aux : ∀ (l : List String) (acc : List (κ × List String)),
      (∀ g ∈ acc, ∀ m ∈ g.2, key m = g.1) →
      ∀ g ∈ l.foldl (fun acc p => insertKey (key p) p acc) acc, ∀ m ∈ g.2, key m = g.1 := by
    intro l
    induction l with
    | nil => intro acc hacc; exact hacc
    | cons p rest ih =>
      intro acc hacc
      simp only [List.foldl_cons]
      exact ih _ (insertKey_key_eq key (key p) p rfl acc hacc)
  intro g hg
  exact aux l [] (by intro g hg; simp at hg) g hg

theorem assignGo_flatMap (content : String → List Nat) (p : String) :
    ∀ (acc : List (String × List String)),
    ((assignGo content acc p).1.flatMap (fun c => c.2)).Perm
      ((acc.flatMap (fun c => c.2)) ++ [p]) := by
  intro acc
  induction acc with
  | nil => simp [assignGo]
  | cons c0 rest ih =>
    obtain ⟨rep, ms⟩ := c0
    simp only [assignGo]
    by_cases hid : filesAreIdentical (content p) (content rep) = true
    · rw [if_pos hid]
      simp only [List.flatMap_cons]
      calc (ms ++ [p]) ++ rest.flatMap (fun c => c.2)
          = ms ++ ([p] ++ rest.flatMap (fun c => c.2)) := by rw [List.append_assoc]
        _ ~ ms ++ (rest.flatMap (fun c => c.2) ++ [p]) :=
            List.Perm.append_left ms List.perm_append_comm
        _ = (ms ++ rest.flatMap (fun c => c.2)) ++ [p] := by rw [List.append_assoc]
    · rw [if_neg hid]
      simp only [List.flatMap_cons]
      calc ms ++ (assignGo content rest p).1.flatMap (fun c => c.2)
          ~ ms ++ (rest.flatMap (fun c => c.2) ++ [p]) := List.Perm.append_left ms ih
        _ = (ms ++ rest.flatMap (fun c => c.2)) ++ [p] := by rw [List.append_assoc]

theorem assignGo_rep_mem (content : String → List Nat) (p : String) :
    ∀ (acc : List (String × List String)), (∀ c ∈ acc, c.1 ∈ c.2) →
    ∀ c ∈ (assignGo content acc p).1, c.1 ∈ c.2 := by
  intro acc
  induction acc with
  | nil =>
    intro _ c hc
    simp only [assignGo, List.mem_singleton] at hc
    subst hc
    exact List.mem_singleton_self p
  | cons c0 rest ih =>
    obtain ⟨rep, ms⟩ := c0
    intro hacc c hc
    have h0 := hacc (rep, ms) (List.mem_cons_self _ _)
    simp only [assignGo] at hc
    by_cases hid : filesAreIdentical (content p) (content rep) = true
    · rw [if_pos hid] at hc
      rcases List.mem_cons.mp hc with hc | hc
      · subst hc
        simp only
        exact List.mem_append.mpr (Or.inl h0)
      · exact hacc c (List.mem_cons_of_mem _ hc)
    · rw [if_neg hid] at hc
      rcases List.mem_cons.mp hc with hc | hc
      · subst hc
        exact h0
      · exact ih (fun c' hc' => hacc c' (List.mem_cons_of_mem _ hc')) c hc

theorem assignGo_pairs (content : String → List Nat) (p : String) :
    ∀ (acc : List (String × List String)),
    ∀ pr ∈ (assignGo content acc p).2, pr.1 = p ∧ ∃ c ∈ acc, pr.2 = c.1 := by
  intro acc
  induction acc with
  | nil =>
    intro pr hpr
    simp [assignGo] at hpr
  | cons c0 rest ih =>
    obtain ⟨rep, ms⟩ := c0
    intro pr hpr
    simp only [assignGo] at hpr
    by_cases hid : filesAreIdentical (content p) (content rep) = true
    · rw [if_pos hid] at hpr
      simp only [List.mem_singleton] at hpr
      subst hpr
      exact ⟨rfl, ⟨(rep, ms), List.mem_cons_self _ _, rfl⟩⟩
    · rw [if_neg hid] at hpr
      rcases List.mem_cons.mp hpr with hpr | hpr
      · subst hpr
        exact ⟨rfl, ⟨(rep, ms), List.mem_cons_self _ _, rfl⟩⟩
      · obtain ⟨h1, c, hc, h2⟩ := ih pr hpr
        exact ⟨h1, c, List.mem_cons_of_mem _ hc, h2⟩

theorem clustersC_aux (content : String → List Nat) :
    ∀ (cands : List String) (acc : List (String × List String) × List (String × String)),
    (∀ c ∈ acc.1, c.1 ∈ c.2) →
    (∀ c ∈ (cands.foldl (fun acc p =>
        ((assignGo content acc.1 p).1, acc.2 ++ (assignGo content acc.1 p).2)) acc).1,
      c.1 ∈ c.2) ∧
    (((cands.foldl (fun acc p =>
        ((assignGo content acc.1 p).1, acc.2 ++ (assignGo content acc.1 p).2)) acc).1.flatMap
          (fun c => c.2)).Perm ((acc.1.flatMap (fun c => c.2)) ++ cands)) ∧
    (∀ pr ∈ (cands.foldl (fun acc p =>
        ((assignGo content acc.1 p).1, acc.2 ++ (assignGo content acc.1 p).2)) acc).2,
      pr ∈ acc.2 ∨
        (pr.1 ∈ cands ∧ (pr.2 ∈ acc.1.flatMap (fun c => c.2) ∨ pr.2 ∈ cands))) := by
  intro cands
  induction cands with
  | nil =>
    intro acc hrep
    refine ⟨hrep, by simp, ?_⟩
    intro pr hpr
    exact Or.inl hpr
  | cons p rest ih =>
    intro acc hrep
    simp only [List.foldl_cons]
    obtain ⟨ih1, ih2, ih3⟩ := ih ((assignGo content acc.1 p).1, acc.2 ++ (assignGo content acc.1 p).2)
      (assignGo_rep_mem content p acc.1 hrep)
    refine ⟨ih1, ?_, ?_⟩
    · calc ((rest.foldl (fun acc p =>
            ((assignGo content acc.1 p).1, acc.2 ++ (assignGo content acc.1 p).2))
            ((assignGo content acc.1 p).1, acc.2 ++ (assignGo content acc.1 p).2)).1.flatMap
              (fun c => c.2))
          ~ ((assignGo content acc.1 p).1.flatMap (fun c => c.2)) ++ rest := ih2
        _ ~ ((acc.1.flatMap (fun c => c.2)) ++ [p]) ++ rest :=
            List.Perm.append_right rest (assignGo_flatMap content p acc.1)
        _ = (acc.1.flatMap (fun c => c.2)) ++ (p :: rest) := by rw [List.append_assoc]; rfl
    · intro pr hpr
      rcases ih3 pr hpr with hpr | ⟨h1, h2⟩
      · rcases List.mem_append.mp hpr with hpr | hpr
        · exact Or.inl hpr
        · obtain ⟨hp1, c, hc, hp2⟩ := assignGo_pairs content p acc.1 pr hpr
          refine Or.inr ⟨by rw [hp1]; exact List.mem_cons_self p rest, Or.inl ?_⟩
          rw [hp2]
          exact List.mem_flatMap.mpr ⟨c, hc, hrep c hc⟩
      · refine Or.inr ⟨List.mem_cons_of_mem p h1, ?_⟩
        rcases h2 with h2 | h2
        · rcases List.mem_append.mp ((assignGo_flatMap content p acc.1).mem_iff.mp h2) with h3 | h3
          · exact Or.inl h3
          · simp only [List.mem_singleton] at h3
            rw [h3]
            exact Or.inr (List.mem_cons_self p rest)
        · exact Or.inr (List.mem_cons_of_mem p h2)

theorem clustersC_rep_mem (content : String → List Nat) (cands : List String) :
    ∀ c ∈ (clustersC content cands).1, c.1 ∈ c.2 :=
  (clustersC_aux content cands ([], []) (by intro c hc; simp at hc)).1

theorem clustersC_flatMap_perm (content : String → List Nat) (cands : List String) :
    ((clustersC content cands).1.flatMap (fun c => c.2)).Perm cands := by
  have h := (clustersC_aux content cands ([], []) (by intro c hc; simp at hc)).2.1
  simpa using h

theorem clustersC_pairs_mem (content : String → List Nat) (cands : List String) :
    ∀ pr ∈ (clustersC content cands).2, pr.1 ∈ cands ∧ pr.2 ∈ cands := by
  intro pr hpr
  have h := (clustersC_aux content cands ([], []) (by intro c hc; simp at hc)).2.2 pr hpr
  rcases h with h | ⟨h1, h2⟩
  · simp at h
  · refine ⟨h1, ?_⟩
    rcases h2 with h2 | h2
    · simp at h2
    · exact h2

theorem headerGroupOut_kept_eq (content : String → List Nat)
    (details : String → DetailedResult) (cands : List String) :
    (headerGroupOut content details cands).kept =
      ((clustersC content cands).1.map (fun c => c.2)).map (fun ms => pickOldest ms details) := by
  cases cands with
  | nil => simp [headerGroupOut, clustersC]
  | cons p tail =>
    cases tail with
    | nil => simp [headerGroupOut, clustersC, assignGo, pickOldest_singleton]
    | cons q rest =>
      simp only [headerGroupOut, List.map_map]
      rfl

theorem headerGroupOut_skips_eq (content : String → List Nat)
    (details : String → DetailedResult) (cands : List String) :
    (headerGroupOut content details cands).skips =
      ((clustersC content cands).1.map (fun c => c.2)).flatMap (fun ms =>
        (ms.filter (fun m => m ≠ pickOldest ms details)).map
          (fun m => (m, pickOldest ms details))) := by
  cases cands with
  | nil => simp [headerGroupOut, clustersC]
  | cons p tail =>
    cases tail with
    | nil =>
      simp only [headerGroupOut, clustersC, List.foldl_cons, List.foldl_nil, assignGo]
      try simp [pickOldest_singleton, List.filter_cons]
    | cons q rest =>
      simp only [headerGroupOut, List.flatMap_map]

theorem headerGroupOut_compared_mem (content : String → List Nat)
    (details : String → DetailedResult) (cands : List String) :
    ∀ pr ∈ (headerGroupOut content details cands).compared, pr.1 ∈ cands ∧ pr.2 ∈ cands := by
  cases cands with
  | nil => intro pr hpr; simp [headerGroupOut, clustersC] at hpr
  | cons p tail =>
    cases tail with
    | nil => intro pr hpr; simp [headerGroupOut] at hpr
    | cons q rest =>
      intro pr hpr
      simp only [headerGroupOut] at hpr
      exact clustersC_pairs_mem content (p :: q :: rest) pr hpr

theorem sizeGroupOut_kept_eq (content : String → List Nat)
    (details : String → DetailedResult) (size : Nat) (paths : List String) :
    (sizeGroupOut content details size paths).kept =
      ((groupByKey (fun p => headerOf content size p) paths).flatMap
        (fun hg => (clustersC content hg.2).1.map (fun c => c.2))).map
          (fun ms => pickOldest ms details) := by
  cases paths with
  | nil => simp [sizeGroupOut, groupByKey]
  | cons p tail =>
    cases tail with
    | nil =>
      simp [sizeGroupOut, groupByKey, insertKey, clustersC, assignGo, pickOldest_singleton]
    | cons q rest =>
      simp only [sizeGroupOut, List.map_flatMap]
      exact List.flatMap_congr (fun hg _ => by
        rw [headerGroupOut_kept_eq, List.map_map])

theorem sizeGroupOut_skips_eq (content : String → List Nat)
    (details : String → DetailedResult) (size : Nat) (paths : List String) :
    (sizeGroupOut content details size paths).skips =
      ((groupByKey (fun p => headerOf content size p) paths).flatMap
        (fun hg => (clustersC content hg.2).1.map (fun c => c.2))).flatMap (fun ms =>
          (ms.filter (fun m => m ≠ pickOldest ms details)).map
            (fun m => (m, pickOldest ms details))) := by
  cases paths with
  | nil => simp [sizeGroupOut, groupByKey]
  | cons p tail =>
    cases tail with
    | nil =>
      simp only [sizeGroupOut, groupByKey, List.foldl_cons, List.foldl_nil, insertKey,
        clustersC, assignGo]
      simp [assignGo, pickOldest_singleton, List.filter_cons]
    | cons q rest =>
      simp only [sizeGroupOut, List.flatMap_assoc]
      exact List.flatMap_congr (fun hg _ => by
        rw [headerGroupOut_skips_eq, List.flatMap_map])

theorem sizeGroupOut_compared_mem (content : String → List Nat)
    (details : String → DetailedResult) (size : Nat) (paths : List String) :
    ∀ pr ∈ (sizeGroupOut content details size paths).compared,
      pr.1 ∈ paths ∧ pr.2 ∈ paths := by
  cases paths with
  | nil => intro pr hpr; simp [sizeGroupOut, groupByKey] at hpr
  | cons p tail =>
    cases tail with
    | nil => intro pr hpr; simp [sizeGroupOut] at hpr
    | cons q rest =>
      intro pr hpr
      simp only [sizeGroupOut] at hpr
      obtain ⟨hg, hhg, hpr⟩ := List.mem_flatMap.mp hpr
      obtain ⟨h1, h2⟩ := headerGroupOut_compared_mem content details hg.2 pr hpr
      have hmem : ∀ m ∈ hg.2, m ∈ p :: q :: rest := by
        intro m hm
        exact (groupByKey_flatMap_perm (fun r => headerOf content size r)
          (p :: q :: rest)).mem_iff.mp (List.mem_flatMap.mpr ⟨hg, hhg, hm⟩)
      exact ⟨hmem _ h1, hmem _ h2⟩

theorem sizeGroupOut_hashed_eq (content : String → List Nat)
    (details : String → DetailedResult) (size : Nat) (paths : List String) :
    ∀ ph ∈ (sizeGroupOut content details size paths).hashed, ph.1 ∈ paths ∧ ph.2 = size := by
  cases paths with
  | nil => intro ph hph; simp [sizeGroupOut] at hph
  | cons p tail =>
    cases tail with
    | nil => intro ph hph; simp [sizeGroupOut] at hph
    | cons q rest =>
      intro ph hph
      simp only [sizeGroupOut] at hph
      obtain ⟨m, hm, hmp⟩ := List.mem_map.mp hph
      rw [← hmp]
      exact ⟨hm, rfl⟩

theorem dedupeCore_kept_eq (content : String → List Nat) (details : String → DetailedResult)
    (sizes : String → Nat) (sources : List String) :
    (dedupeCore content details sizes sources).kept =
      (allClusters content sizes sources).map (fun ms => pickOldest ms details) := by
  unfold dedupeCore allClusters
  simp only [List.map_flatMap]
  exact List.flatMap_congr (fun g _ => by rw [sizeGroupOut_kept_eq, List.map_flatMap])

theorem dedupeCore_skips_eq (content : String → List Nat) (details : String → DetailedResult)
    (sizes : String → Nat) (sources : List String) :
    (dedupeCore content details sizes sources).skips =
      (allClusters content sizes sources).flatMap (fun ms =>
        (ms.filter (fun m => m ≠ pickOldest ms details)).map
          (fun m => (m, pickOldest ms details))) := by
  unfold dedupeCore allClusters
  simp only [List.flatMap_assoc]
  exact List.flatMap_congr (fun g _ => by rw [sizeGroupOut_skips_eq, List.flatMap_assoc])

theorem allClusters_flatten_perm (content : String → List Nat) (sizes : String → Nat)
    (sources : List String) :
    ((allClusters content sizes sources).flatMap id).Perm sources := by
  unfold allClusters
  rw [List.flatMap_assoc]
  refine List.Perm.trans ?_ (groupByKey_flatMap_perm sizes sources)
  refine List.Perm.flatMap_left _ ?_
  intro g _
  rw [List.flatMap_assoc]
  refine List.Perm.trans ?_ (groupByKey_flatMap_perm (fun r => headerOf content g.1 r) g.2)
  refine List.Perm.flatMap_left _ ?_
  intro hg _
  have : ((clustersC content hg.2).1.map (fun c => c.2)).flatMap id =
      (clustersC content hg.2).1.flatMap (fun c => c.2) := by
    rw [List.flatMap_map]
    rfl
  rw [this]
  exact clustersC_flatMap_perm content hg.2

theorem allClusters_ne_nil (content : String → List Nat) (sizes : String → Nat)
    (sources : List String) :
    ∀ ms ∈ allClusters content sizes sources, ms ≠ [] := by
  intro ms hms
  unfold allClusters at hms
  obtain ⟨g, _, hms⟩ := List.mem_flatMap.mp hms
  obtain ⟨hg, _, hms⟩ := List.mem_flatMap.mp hms
  obtain ⟨c, hc, hcm⟩ := List.mem_map.mp hms
  have := clustersC_rep_mem content hg.2 c hc
  rw [hcm] at this
  intro he
  rw [he] at this
  simp at this

theorem lookup_some_mem {β : Type} {l : List (String × β)} {a : String} {b : β}
    (h : l.lookup a = some b) : (a, b) ∈ l := by
  induction l with
  | nil => simp at h
  | cons pr rest ih =>
    obtain ⟨k, v⟩ := pr
    rw [List.lookup_cons] at h
    cases hk : a == k with
    | true =>
      rw [hk] at h
      simp only [Option.some.injEq] at h
      subst h
      have hak : a = k := eq_of_beq hk
      subst hak
      exact List.mem_cons_self _ _
    | false =>
      rw [hk] at h
      simp only at h
      exact List.mem_cons_of_mem _ (ih h)

theorem lookup_none_of_forall {β : Type} {l : List (String × β)} {a : String}
    (h : ∀ pr ∈ l, pr.1 ≠ a) : l.lookup a = none := by
  rw [List.lookup_eq_none_iff]
  intro pr hpr
  have := h pr hpr
  simp only [bne_iff_ne, ne_eq]
  intro he
  exact this he.symm

theorem decisionFor_sourcePath (kept : List String) (skips : List (String × String))
    (p : String) : (decisionFor kept skips p).sourcePath = p := by
  unfold decisionFor
  cases skips.lookup p with
  | some c => rfl
  | none =>
    by_cases hc : kept.contains p
    · rw [if_pos hc]
    · rw [if_neg hc]

/-- C2: when the stat'd sizes differ, `filesAreIdentical` answers false
without opening (hence without reading) either file; and inside
`DedupeSources` every header hash is computed with its exact-size group's
size and every pairwise byte comparison happens between two members of the
same exact-size group. -/
theorem claim_C2_size_short_circuit (content : String → List Nat)
    (details : String → DetailedResult) (sizes : String → Nat)
    (sources : List String) (p1 p2 : String)
    (h : (content p1).length ≠ (content p2).length) :
    filesAreIdenticalOpens (content p1) (content p2) = (false, false) ∧
    (∀ pr ∈ (dedupeCore content details sizes sources).compared, sizes pr.1 = sizes pr.2) ∧
    (∀ ph ∈ (dedupeCore content details sizes sources).hashed, sizes ph.1 = ph.2) := by
  refine ⟨?_, ?_, ?_⟩
  · unfold filesAreIdenticalOpens
    rw [if_pos h]
  · intro pr hpr
    have hpr2 : pr ∈ (groupByKey sizes sources).flatMap
        (fun g => (sizeGroupOut content details g.1 g.2).compared) := hpr
    obtain ⟨g, hgm, hpr3⟩ := List.mem_flatMap.mp hpr2
    obtain ⟨h1, h2⟩ := sizeGroupOut_compared_mem content details g.1 g.2 pr hpr3
    rw [groupByKey_key_eq sizes sources g hgm _ h1,
      groupByKey_key_eq sizes sources g hgm _ h2]
  · intro ph hph
    have hph2 : ph ∈ (groupByKey sizes sources).flatMap
        (fun g => (sizeGroupOut content details g.1 g.2).hashed) := hph
    obtain ⟨g, hgm, hph3⟩ := List.mem_flatMap.mp hph2
    obtain ⟨h1, h2⟩ := sizeGroupOut_hashed_eq content details g.1 g.2 ph hph3
    rw [h2]
    exact groupByKey_key_eq sizes sources g hgm _ h1

/-- Concrete filesystem for the C2 witness: two files of different sizes. -/
def contentC2 : String → List Nat := fun p => if p = "a" then [1] else []

/-- Stat'd sizes for the C2 witness. -/
def sizesC2 : String → Nat := fun p => (contentC2 p).length

/-- Neutral detail map for the C2 witness. -/
def detailsC2 : String → DetailedResult :=
  fun _ => ⟨⟨zeroTimeV, Source.unknown⟩, zeroTimeV, zeroTimeV, zeroTimeV⟩

/-- Witness for C2 on a two-file batch of different sizes. -/
theorem claim_C2_size_short_circuit_witness :
    filesAreIdenticalOpens (contentC2 "a") (contentC2 "b") = (false, false) ∧
    (∀ pr ∈ (dedupeCore contentC2 detailsC2 sizesC2 ["a", "b"]).compared,
      sizesC2 pr.1 = sizesC2 pr.2) ∧
    (∀ ph ∈ (dedupeCore contentC2 detailsC2 sizesC2 ["a", "b"]).hashed,
      sizesC2 ph.1 = ph.2) :=
  claim_C2_size_short_circuit contentC2 detailsC2 sizesC2 ["a", "b"] "a" "b" (by decide)

/-- C4: with distinct sources and known sizes, a (successful)
`DedupeSources` call returns exactly one `Decision` per input source, in
input order; and every `skipped_duplicate_source` decision names a
`DuplicateOf` path that is in the kept output and itself carries a `copy`
decision — a skipped duplicate never references another skipped duplicate. -/
theorem claim_C4_dedupe_decisions (content : String → List Nat)
    (details : String → DetailedResult) (sizes : String → Nat)
    (sources : List String) (hnd : sources.Nodup) :
    ((DedupeSources content sources details sizes).2.map (fun d => d.sourcePath) = sources) ∧
    (∀ d ∈ (DedupeSources content sources details sizes).2,
      d.action = Action.skippedDuplicateSrc →
      d.duplicateOf ∈ (DedupeSources content sources details sizes).1 ∧
      ∃ d' ∈ (DedupeSources content sources details sizes).2,
        d'.sourcePath = d.duplicateOf ∧ d'.action = Action.copy) := by
  have hdec : (DedupeSources content sources details sizes).2 =
      sources.map (decisionFor (dedupeCore content details sizes sources).kept
        (dedupeCore content details sizes sources).skips) := rfl
  have hkeptout : (DedupeSources content sources details sizes).1 =
      sources.filter (fun p =>
        ((dedupeCore content details sizes sources).skips.lookup p).isNone &&
        (dedupeCore content details sizes sources).kept.contains p) := rfl
  constructor
  · rw [hdec, List.map_map]
    have hcongr : sources.map ((fun d => d.sourcePath) ∘
        decisionFor (dedupeCore content details sizes sources).kept
          (dedupeCore content details sizes sources).skips) =
        sources.map (fun p => p) :=
      List.map_congr_left (fun p _ => decisionFor_sourcePath _ _ p)
    rw [hcongr]
    exact List.map_id' sources
  · intro d hd haction
    rw [hdec] at hd
    obtain ⟨p, hp, hpd⟩ := List.mem_map.mp hd
    unfold decisionFor at hpd
    cases hlk : (dedupeCore content details sizes sources).skips.lookup p with
    | none =>
      exfalso
      rw [hlk] at hpd
      subst hpd
      by_cases hc : (dedupeCore content details sizes sources).kept.contains p
      · rw [if_pos hc] at haction
        cases haction
      · rw [if_neg hc] at haction
        cases haction
    | some c =>
      rw [hlk] at hpd
      have hdup : d.duplicateOf = c := by rw [← hpd]
      have hmemskips : (p, c) ∈ (dedupeCore content details sizes sources).skips :=
        lookup_some_mem hlk
      rw [dedupeCore_skips_eq] at hmemskips
      obtain ⟨ms, hmsC, hmem2⟩ := List.mem_flatMap.mp hmemskips
      obtain ⟨m, hmF, hpair⟩ := List.mem_map.mp hmem2
      have hm_eq : m = p := congrArg Prod.fst hpair
      have hc_eq : pickOldest ms details = c := congrArg Prod.snd hpair
      have hmsne : ms ≠ [] := allClusters_ne_nil content sizes sources ms hmsC
      have hcanmem : pickOldest ms details ∈ ms := pickOldest_mem details ms hmsne
      have hflat := allClusters_flatten_perm content sizes sources
      have hc_src : pickOldest ms details ∈ sources :=
        hflat.mem_iff.mp (List.mem_flatMap.mpr ⟨ms, hmsC, hcanmem⟩)
      have hnodupflat : ((allClusters content sizes sources).flatMap id).Nodup :=
        hflat.symm.nodup hnd
      rw [List.flatMap_id] at hnodupflat
      obtain ⟨hnodups, hpairwise⟩ := List.nodup_flatten.mp hnodupflat
      have hnotkey : ∀ pr ∈ (dedupeCore content details sizes sources).skips,
          pr.1 ≠ pickOldest ms details := by
        intro pr hpr he
        rw [dedupeCore_skips_eq] at hpr
        obtain ⟨ms2, hms2C, hpr2⟩ := List.mem_flatMap.mp hpr
        obtain ⟨m2, hm2F, hpair2⟩ := List.mem_map.mp hpr2
        obtain ⟨hm2in, hm2ne⟩ := List.mem_filter.mp hm2F
        have hm2_eq : m2 = pr.1 := congrArg Prod.fst hpair2
        have hm2ne2 : m2 ≠ pickOldest ms2 details := of_decide_eq_true hm2ne
        by_cases hmm : ms = ms2
        · subst hmm
          exact hm2ne2 (by rw [hm2_eq, he])
        · have hdisj : List.Disjoint ms ms2 :=
            List.Pairwise.forall (fun a b hab => hab.symm) hpairwise hmsC hms2C hmm
          have hin2 : pickOldest ms details ∈ ms2 := by
            rw [← he, ← hm2_eq]
            exact hm2in
          exact hdisj hcanmem hin2
      have hlk_c : (dedupeCore content details sizes sources).skips.lookup
          (pickOldest ms details) = none := lookup_none_of_forall hnotkey
      have hkc : pickOldest ms details ∈ (dedupeCore content details sizes sources).kept := by
        rw [dedupeCore_kept_eq]
        exact List.mem_map.mpr ⟨ms, hmsC, rfl⟩
      have hcontains : (dedupeCore content details sizes sources).kept.contains
          (pickOldest ms details) = true := List.elem_iff.mpr hkc
      constructor
      · rw [hkeptout, hdup, ← hc_eq]
        apply List.mem_filter.mpr
        refine ⟨hc_src, ?_⟩
        rw [hlk_c, hcontains]
        rfl
      · refine ⟨decisionFor (dedupeCore content details sizes sources).kept
          (dedupeCore content details sizes sources).skips (pickOldest ms details), ?_, ?_, ?_⟩
        · rw [hdec]
          exact List.mem_map.mpr ⟨_, hc_src, rfl⟩
        · rw [hdup, ← hc_eq]
          exact decisionFor_sourcePath _ _ _
        · unfold decisionFor
          rw [hlk_c]
          rw [if_pos hcontains]

/-- Concrete filesystem for the C4 witness: three identical files and one
distinct file. -/
def contentC4 : String → List Nat := fun p => if p = "d" then [9] else [1, 2]

/-- Stat'd sizes for the C4 witness. -/
def sizesC4 : String → Nat := fun p => (contentC4 p).length

/-- Detail map for the C4 witness: `b` has the oldest timestamp. -/
def detailsC4 : String → DetailedResult := fun p =>
  if p = "b" then ⟨⟨timeDate 2019 1 1 0 0 0 0, Source.filename⟩, zeroTimeV,
    timeDate 2019 1 1 0 0 0 0, zeroTimeV⟩
  else if p = "a" then ⟨⟨timeDate 2020 1 1 0 0 0 0, Source.mtime⟩, zeroTimeV, zeroTimeV,
    timeDate 2020 1 1 0 0 0 0⟩
  else ⟨⟨zeroTimeV, Source.unknown⟩, zeroTimeV, zeroTimeV, zeroTimeV⟩

/-- Witness for C4 on the batch `[a, b, c, d]` where `a ≡ b ≡ c`. -/
theorem claim_C4_dedupe_decisions_witness :
    ((DedupeSources contentC4 ["a", "b", "c", "d"] detailsC4 sizesC4).2.map
      (fun d => d.sourcePath) = ["a", "b", "c", "d"]) ∧
    (∀ d ∈ (DedupeSources contentC4 ["a", "b", "c", "d"] detailsC4 sizesC4).2,
      d.action = Action.skippedDuplicateSrc →
      d.duplicateOf ∈ (DedupeSources contentC4 ["a", "b", "c", "d"] detailsC4 sizesC4).1 ∧
      ∃ d' ∈ (DedupeSources contentC4 ["a", "b", "c", "d"] detailsC4 sizesC4).2,
        d'.sourcePath = d.duplicateOf ∧ d'.action = Action.copy) :=
  claim_C4_dedupe_decisions contentC4 detailsC4 sizesC4 ["a", "b", "c", "d"] (by decide)

/-! ## Destination planner (`plan` package and `reconcile.PlanDestinations`) -/

/-- `plan.Operation`. -/
structure Operation where
  sourcePath : String
  destinationPath : String
deriving DecidableEq, Repr

/-- The unbounded suffix search `for i := 1; ; i++` of
`plan.resolveCollision` and `reconcile.unknownDestination`, with explicit
fuel (one unit per probed index).  Callers pass `existingFiles.length + 1`
units, which always suffices because distinct indices give distinct
candidate paths, so the Go loop always terminates within that many
probes. -/
def resolveLoop (existingFiles : List String) (dir nameWithoutExt ext : String) :
    Nat → Nat → String
  | i, 0 => joinPath dir (nameWithoutExt ++ "_" ++ decString i ++ ext)
  | i, fuel + 1 =>
    if existingFiles.contains (joinPath dir (nameWithoutExt ++ "_" ++ decString i ++ ext)) then
      resolveLoop existingFiles dir nameWithoutExt ext (i + 1) fuel
    else joinPath dir (nameWithoutExt ++ "_" ++ decString i ++ ext)

/-- `plan.resolveCollision`.  The Go function also marks the chosen path in
the mutable `existingFiles` map; each caller re-marks the returned path
itself, so the pure function plus the caller-side reservation reproduces
the mutation exactly. -/
def resolveCollision (dir filename : String) (existingFiles : List String) : String :=
  if !existingFiles.contains (joinPath dir filename) then joinPath dir filename
  else
    resolveLoop existingFiles dir (trimSuffix filename (extOf filename)) (extOf filename) 1
      (existingFiles.length + 1)

/-- `plan.Destination`: `<destRoot>/YYYY/MM/DD/<filename>` from the
timestamp's own calendar fields, zero-padded, with collision resolution. -/
def Destination (destRoot filename : String) (createdAt : Time)
    (existingFiles : List String) : String :=
  resolveCollision
    (joinPath (joinPath (joinPath destRoot (padDec 4 createdAt.year))
      (padDec 2 createdAt.month)) (padDec 2 createdAt.day))
    filename existingFiles

/-- `reconcile.unknownDestination`: `<destRoot>/unknown/<filename>` with
the same suffixing loop as `plan.resolveCollision`. -/
def unknownDestination (destRoot filename : String) (existing : List String) : String :=
  if !existing.contains (joinPath (joinPath destRoot "unknown") filename) then
    joinPath (joinPath destRoot "unknown") filename
  else
    resolveLoop existing (joinPath destRoot "unknown") (trimSuffix filename (extOf filename))
      (extOf filename) 1 (existing.length + 1)

/-- `reconcile.PlanDestinations`: one operation per kept source in order,
threading the in-call reservation set; a present, non-zero best timestamp
plans into the dated directory, otherwise into the unknown bucket. -/
def PlanDestinations (destRoot : String) (sources : List String)
    (bestCreatedAt : String → Option Time) : List Operation :=
  (sources.foldl (fun acc src =>
    (acc.1 ++ [{ sourcePath := src, destinationPath :=
        match bestCreatedAt src with
        | some t =>
          if t.isZero = false then Destination destRoot (baseName src) t acc.2
          else unknownDestination destRoot (baseName src) acc.2
        | none => unknownDestination destRoot (baseName src) acc.2 }],
     (match bestCreatedAt src with
      | some t =>
        if t.isZero = false then Destination destRoot (baseName src) t acc.2
        else unknownDestination destRoot (baseName src) acc.2
      | none => unknownDestination destRoot (baseName src) acc.2) :: acc.2))
    (([] : List Operation), ([] : List String))).1

/-- The candidate path the planner reserves for the `j`-th same-named file
in one directory: the plain name for `j = 0`, then `name_j` with the
suffix inserted before the (final) extension. -/
def planCand (dir name : String) (j : Nat) : String :=
  if j = 0 then joinPath dir name
  else joinPath dir (trimSuffix name (extOf name) ++ "_" ++ decString j ++ extOf name)

/-- The destination directory C6 predicts from a best timestamp, following
the spec: `<root>/YYYY/MM/DD` of the timestamp's own calendar date when it
is present and non-zero, `<root>/unknown` otherwise. -/
def specDir (destRoot : String) (t? : Option Time) : String :=
  match t? with
  | some t =>
    if t.isZero then joinPath destRoot "unknown"
    else joinPath (joinPath (joinPath destRoot (padDec 4 t.year)) (padDec 2 t.month))
      (padDec 2 t.day)
  | none => joinPath destRoot "unknown"

theorem unknownDestination_eq_resolveCollision (destRoot filename : String)
    (existing : List String) :
    unknownDestination destRoot filename existing =
      resolveCollision (joinPath destRoot "unknown") filename existing := rfl

theorem takeWhile_dot_split (l : List Char) (h : l.contains '.' = true) :
    ∃ tail : List Char, l.takeWhile notDot ++ ('.' :: tail) = l := by
  induction l with
  | nil => simp at h
  | cons c rest ih =>
    by_cases hc : c = '.'
    · subst hc
      refine ⟨rest, ?_⟩
      rw [List.takeWhile_cons]
      have hp : notDot '.' = false := by simp [notDot]
      rw [hp]
      simp
    · have h2 : rest.contains '.' = true := by
        simp only [List.contains_cons] at h
        have hcb : ('.' == c) = false := by
          rw [beq_eq_false_iff_ne]
          exact fun he => hc he.symm
        rw [hcb] at h
        simpa using h
      obtain ⟨tail, htail⟩ := ih h2
      refine ⟨tail, ?_⟩
      rw [List.takeWhile_cons]
      have hp : notDot c = true := by simp [notDot, hc]
      rw [hp]
      simp only [if_true, List.cons_append]
      rw [htail]

theorem extChars_take_append (cs : List Char) :
    cs.take (cs.length - (extChars cs).length) ++ extChars cs = cs := by
  unfold extChars
  by_cases hdot : cs.reverse.contains '.' = true
  · rw [if_pos hdot]
    obtain ⟨tail, htail⟩ := takeWhile_dot_split cs.reverse hdot
    set T := cs.reverse.takeWhile notDot with hT
    have hcs : cs = tail.reverse ++ ('.' :: T.reverse) := by
      have h1 : (T ++ '.' :: tail).reverse = cs := by rw [htail, List.reverse_reverse]
      rw [← h1, List.reverse_append]
      simp
    have hlen : cs.length - ('.' :: T.reverse).length = tail.reverse.length := by
      rw [hcs]
      simp only [List.length_append, List.length_cons, List.length_reverse]
      omega
    rw [hlen]
    conv_lhs => rw [hcs]
    rw [List.take_left]
    exact hcs.symm
  · rw [if_neg hdot]
    simp

theorem stem_append_ext (name : String) :
    trimSuffix name (extOf name) ++ extOf name = name := by
  unfold trimSuffix
  have hto : (extOf name).toList = extChars name.toList := rfl
  have hsuff : (extOf name).toList.isSuffixOf name.toList = true := by
    rw [hto, List.isSuffixOf_iff_suffix]
    exact ⟨name.toList.take (name.toList.length - (extChars name.toList).length),
      extChars_take_append name.toList⟩
  rw [if_pos hsuff]
  apply String.ext
  rw [String.data_append]
  rw [hto]
  exact extChars_take_append name.toList

theorem joinPath_inj_right {d x y : String} (h : joinPath d x = joinPath d y) : x = y := by
  unfold joinPath at h
  have h2 := congrArg String.data h
  rw [String.data_append, String.data_append, String.data_append, String.data_append] at h2
  exact String.ext (List.append_cancel_left h2)

theorem suffixName_inj {stem ext : String} {i j : Nat}
    (h : stem ++ "_" ++ decString i ++ ext = stem ++ "_" ++ decString j ++ ext) : i = j := by
  have h2 := congrArg String.data h
  simp only [String.data_append] at h2
  have h3 := List.append_cancel_right h2
  have h4 := List.append_cancel_left h3
  exact decChars_inj h4

theorem base_ne_suffixName (stem ext : String) (i : Nat) :
    stem ++ ext ≠ stem ++ "_" ++ decString i ++ ext := by
  intro h
  have h2 := congrArg String.data h
  simp only [String.data_append] at h2
  have hl := congrArg List.length h2
  simp only [List.length_append] at hl
  have hd : 0 < (decChars i).length := List.length_pos.mpr (decChars_ne_nil i)
  have hu : ("_" : String).data.length = 1 := rfl
  have hdec : (decString i).data.length = (decChars i).length := rfl
  omega

theorem planCand_inj (dir name : String) : Function.Injective (planCand dir name) := by
  intro i j h
  unfold planCand at h
  by_cases hi : i = 0 <;> by_cases hj : j = 0
  · rw [hi, hj]
  · exfalso
    rw [if_pos hi, if_neg hj] at h
    have h2 : name = trimSuffix name (extOf name) ++ "_" ++ decString j ++ extOf name :=
      joinPath_inj_right h
    exact base_ne_suffixName (trimSuffix name (extOf name)) (extOf name) j
      ((stem_append_ext name).trans h2)
  · exfalso
    rw [if_neg hi, if_pos hj] at h
    have h2 : name = trimSuffix name (extOf name) ++ "_" ++ decString i ++ extOf name :=
      joinPath_inj_right h.symm
    exact base_ne_suffixName (trimSuffix name (extOf name)) (extOf name) i
      ((stem_append_ext name).trans h2)
  · rw [if_neg hi, if_neg hj] at h
    exact suffixName_inj (joinPath_inj_right h)

theorem resolveLoop_first_free (existing : List String) (dir stem ext : String) :
    ∀ (fuel i j : Nat), i ≤ j → j < i + fuel →
    (∀ k, i ≤ k → k < j → joinPath dir (stem ++ "_" ++ decString k ++ ext) ∈ existing) →
    joinPath dir (stem ++ "_" ++ decString j ++ ext) ∉ existing →
    resolveLoop existing dir stem ext i fuel =
      joinPath dir (stem ++ "_" ++ decString j ++ ext) := by
  intro fuel
  induction fuel with
  | zero =>
    intro i j h1 h2 _ _
    omega
  | succ fuel ih =>
    intro i j h1 h2 hall hfree
    by_cases hij : i = j
    · subst hij
      have hcn : ¬(existing.contains (joinPath dir (stem ++ "_" ++ decString i ++ ext)) = true) :=
        fun hcc => hfree (List.elem_iff.mp hcc)
      simp only [resolveLoop]
      rw [if_neg hcn]
    · have hlt : i < j := lt_of_le_of_ne h1 hij
      have hc : existing.contains (joinPath dir (stem ++ "_" ++ decString i ++ ext)) = true :=
        List.elem_iff.mpr (hall i le_rfl hlt)
      simp only [resolveLoop]
      rw [if_pos hc]
      exact ih (i + 1) j hlt (by omega) (fun m hm1 hm2 => hall m (by omega) hm2) hfree

theorem resolveLoop_shape (existing : List String) (dir stem ext : String) :
    ∀ (fuel i : Nat), ∃ j, i ≤ j ∧
    resolveLoop existing dir stem ext i fuel =
      joinPath dir (stem ++ "_" ++ decString j ++ ext) := by
  intro fuel
  induction fuel with
  | zero =>
    intro i
    exact ⟨i, le_rfl, rfl⟩
  | succ fuel ih =>
    intro i
    simp only [resolveLoop]
    by_cases hc : existing.contains (joinPath dir (stem ++ "_" ++ decString i ++ ext)) = true
    · rw [if_pos hc]
      obtain ⟨j, hj1, hj2⟩ := ih (i + 1)
      exact ⟨j, by omega, hj2⟩
    · rw [if_neg hc]
      exact ⟨i, le_rfl, rfl⟩

theorem resolveCollision_next (dir name : String) (existing : List String) (k : Nat)
    (hmem : ∀ x : String, x ∈ existing ↔ ∃ j, j < k ∧ x = planCand dir name j) :
    resolveCollision dir name existing = planCand dir name k := by
  unfold resolveCollision
  by_cases hk : k = 0
  · subst hk
    have hc : ¬(joinPath dir name ∈ existing) := by
      intro hx
      obtain ⟨j, hj, _⟩ := (hmem _).mp hx
      omega
    rw [if_pos (by simp [hc])]
    unfold planCand
    rw [if_pos rfl]
  · have hc0 : joinPath dir name ∈ existing := by
      refine (hmem _).mpr ⟨0, by omega, ?_⟩
      unfold planCand
      rw [if_pos rfl]
    rw [if_neg (by simp [hc0])]
    have hfree : joinPath dir (trimSuffix name (extOf name) ++ "_" ++ decString k ++
        extOf name) ∉ existing := by
      intro hx
      obtain ⟨j, hj, hxe⟩ := (hmem _).mp hx
      unfold planCand at hxe
      by_cases hj0 : j = 0
      · rw [if_pos hj0] at hxe
        have h2 := joinPath_inj_right hxe
        exact base_ne_suffixName (trimSuffix name (extOf name)) (extOf name) k
          ((stem_append_ext name).trans h2.symm)
      · rw [if_neg hj0] at hxe
        have h2 := suffixName_inj (joinPath_inj_right hxe)
        omega
    have hall : ∀ m, 1 ≤ m → m < k →
        joinPath dir (trimSuffix name (extOf name) ++ "_" ++ decString m ++ extOf name)
          ∈ existing := by
      intro m h1 h2
      refine (hmem _).mpr ⟨m, h2, ?_⟩
      unfold planCand
      rw [if_neg (by omega)]
    have hbound : k < 1 + (existing.length + 1) := by
      have hsub : ((List.range k).map (planCand dir name)) ⊆ existing := by
        intro x hx
        obtain ⟨j, hj, hxe⟩ := List.mem_map.mp hx
        exact (hmem x).mpr ⟨j, List.mem_range.mp hj, hxe.symm⟩
      have hnd : ((List.range k).map (planCand dir name)).Nodup :=
        List.Nodup.map (planCand_inj dir name) (List.nodup_range k)
      have hlen := (List.subperm_of_subset hnd hsub).length_le
      simp only [List.length_map, List.length_range] at hlen
      omega
    have hres := resolveLoop_first_free existing dir (trimSuffix name (extOf name))
      (extOf name) (existing.length + 1) 1 k (by omega) (by omega) hall hfree
    rw [hres]
    unfold planCand
    rw [if_neg hk]

theorem resolveCollision_shape (dir name : String) (existing : List String) :
    ∃ n : Nat, resolveCollision dir name existing = planCand dir name n := by
  unfold resolveCollision
  by_cases hc : existing.contains (joinPath dir name) = true
  · rw [if_neg (by simp [List.elem_iff.mp hc])]
    obtain ⟨j, hj1, hj2⟩ := resolveLoop_shape existing dir (trimSuffix name (extOf name))
      (extOf name) (existing.length + 1) 1
    refine ⟨j, ?_⟩
    rw [hj2]
    unfold planCand
    rw [if_neg (by omega)]
  · have hnm : joinPath dir name ∉ existing := fun hm => hc (List.elem_iff.mpr hm)
    rw [if_pos (by simp [hnm])]
    refine ⟨0, ?_⟩
    unfold planCand
    rw [if_pos rfl]

theorem planFold_sequence (destRoot name dir : String) (best : String → Option Time) :
    ∀ (srcs : List String) (k : Nat) (ops0 : List Operation) (existing : List String),
    (∀ s ∈ srcs, ∀ e : List String,
      (match best s with
       | some t =>
         if t.isZero = false then Destination destRoot (baseName s) t e
         else unknownDestination destRoot (baseName s) e
       | none => unknownDestination destRoot (baseName s) e) = resolveCollision dir name e) →
    (∀ x : String, x ∈ existing ↔ ∃ j, j < k ∧ x = planCand dir name j) →
    ((srcs.foldl (fun acc src =>
      (acc.1 ++ [{ sourcePath := src, destinationPath :=
          match best src with
          | some t =>
            if t.isZero = false then Destination destRoot (baseName src) t acc.2
            else unknownDestination destRoot (baseName src) acc.2
          | none => unknownDestination destRoot (baseName src) acc.2 }],
       (match best src with
        | some t =>
          if t.isZero = false then Destination destRoot (baseName src) t acc.2
          else unknownDestination destRoot (baseName src) acc.2
        | none => unknownDestination destRoot (baseName src) acc.2) :: acc.2))
      (ops0, existing)).1).map (fun op => op.destinationPath) =
      ops0.map (fun op => op.destinationPath) ++
        (List.range srcs.length).map (fun i => planCand dir name (k + i)) := by
  intro srcs
  induction srcs with
  | nil =>
    intro k ops0 existing _ _
    simp
  | cons s rest ih =>
    intro k ops0 existing h2 h3
    simp only [List.foldl_cons]
    have hdst : (match best s with
        | some t =>
          if t.isZero = false then Destination destRoot (baseName s) t existing
          else unknownDestination destRoot (baseName s) existing
        | none => unknownDestination destRoot (baseName s) existing) =
        planCand dir name k := by
      rw [h2 s (List.mem_cons_self s rest) existing]
      exact resolveCollision_next dir name existing k h3
    rw [hdst]
    have h3n : ∀ x : String, x ∈ (planCand dir name k :: existing) ↔
        ∃ j, j < k + 1 ∧ x = planCand dir name j := by
      intro x
      constructor
      · intro hx
        rcases List.mem_cons.mp hx with hx | hx
        · exact ⟨k, by omega, hx⟩
        · obtain ⟨j, hj, hje⟩ := (h3 x).mp hx
          exact ⟨j, by omega, hje⟩
      · rintro ⟨j, hj, hje⟩
        by_cases hjk : j = k
        · subst hjk
          rw [hje]
          exact List.mem_cons_self _ _
        · exact List.mem_cons_of_mem _ ((h3 x).mpr ⟨j, by omega, hje⟩)
    have hrec := ih (k + 1) (ops0 ++ [⟨s, planCand dir name k⟩])
      (planCand dir name k :: existing)
      (fun x hx e => h2 x (List.mem_cons_of_mem _ hx) e) h3n
    rw [hrec]
    simp only [List.map_append, List.map_cons, List.map_nil, List.length_cons]
    rw [List.append_assoc]
    congr 1
    rw [List.range_succ_eq_map, List.map_cons, List.map_map]
    simp only [List.singleton_append, Nat.add_zero]
    congr 1
    apply List.map_congr_left
    intro i _
    simp only [Function.comp]
    congr 1
    omega

theorem planFold_shape (destRoot : String) (best : String → Option Time) :
    ∀ (srcs : List String) (ops0 : List Operation) (existing : List String),
    (((srcs.foldl (fun acc src =>
      (acc.1 ++ [{ sourcePath := src, destinationPath :=
          match best src with
          | some t =>
            if t.isZero = false then Destination destRoot (baseName src) t acc.2
            else unknownDestination destRoot (baseName src) acc.2
          | none => unknownDestination destRoot (baseName src) acc.2 }],
       (match best src with
        | some t =>
          if t.isZero = false then Destination destRoot (baseName src) t acc.2
          else unknownDestination destRoot (baseName src) acc.2
        | none => unknownDestination destRoot (baseName src) acc.2) :: acc.2))
      (ops0, existing)).1).map (fun op => op.sourcePath) =
      ops0.map (fun op => op.sourcePath) ++ srcs) ∧
    (∀ op ∈ (srcs.foldl (fun acc src =>
      (acc.1 ++ [{ sourcePath := src, destinationPath :=
          match best src with
          | some t =>
            if t.isZero = false then Destination destRoot (baseName src) t acc.2
            else unknownDestination destRoot (baseName src) acc.2
          | none => unknownDestination destRoot (baseName src) acc.2 }],
       (match best src with
        | some t =>
          if t.isZero = false then Destination destRoot (baseName src) t acc.2
          else unknownDestination destRoot (baseName src) acc.2
        | none => unknownDestination destRoot (baseName src) acc.2) :: acc.2))
      (ops0, existing)).1,
      op ∈ ops0 ∨ ∃ n : Nat, op.destinationPath =
        planCand (specDir destRoot (best op.sourcePath)) (baseName op.sourcePath) n) := by
  intro srcs
  induction srcs with
  | nil =>
    intro ops0 existing
    refine ⟨by simp, ?_⟩
    intro op hop
    exact Or.inl hop
  | cons s rest ih =>
    intro ops0 existing
    simp only [List.foldl_cons]
    have hshape : ∃ n : Nat, (match best s with
        | some t =>
          if t.isZero = false then Destination destRoot (baseName s) t existing
          else unknownDestination destRoot (baseName s) existing
        | none => unknownDestination destRoot (baseName s) existing) =
        planCand (specDir destRoot (best s)) (baseName s) n := by
      rcases hbs : best s with _ | t
      · show ∃ n : Nat, unknownDestination destRoot (baseName s) existing =
          planCand (specDir destRoot none) (baseName s) n
        rw [show specDir destRoot none = joinPath destRoot "unknown" from rfl,
          unknownDestination_eq_resolveCollision]
        exact resolveCollision_shape (joinPath destRoot "unknown") (baseName s) existing
      · have hspec : specDir destRoot (some t) =
            (if t.isZero then joinPath destRoot "unknown"
             else joinPath (joinPath (joinPath destRoot (padDec 4 t.year))
               (padDec 2 t.month)) (padDec 2 t.day)) := rfl
        by_cases hz : t.isZero = false
        · show ∃ n : Nat, (if t.isZero = false then Destination destRoot (baseName s) t existing
            else unknownDestination destRoot (baseName s) existing) =
            planCand (specDir destRoot (some t)) (baseName s) n
          rw [if_pos hz, hspec, if_neg (by simp [hz]), Destination]
          exact resolveCollision_shape _ (baseName s) existing
        · have hzt : t.isZero = true := by
            cases hzz : t.isZero with
            | false => exact absurd hzz hz
            | true => rfl
          show ∃ n : Nat, (if t.isZero = false then Destination destRoot (baseName s) t existing
            else unknownDestination destRoot (baseName s) existing) =
            planCand (specDir destRoot (some t)) (baseName s) n
          rw [if_neg hz, hspec, if_pos hzt, unknownDestination_eq_resolveCollision]
          exact resolveCollision_shape (joinPath destRoot "unknown") (baseName s) existing
    obtain ⟨n, hn⟩ := hshape
    obtain ⟨ihA, ihB⟩ := ih (ops0 ++ [{ sourcePath := s, destinationPath :=
        (match best s with
        | some t =>
          if t.isZero = false then Destination destRoot (baseName s) t existing
          else unknownDestination destRoot (baseName s) existing
        | none => unknownDestination destRoot (baseName s) existing) }])
      ((match best s with
        | some t =>
          if t.isZero = false then Destination destRoot (baseName s) t existing
          else unknownDestination destRoot (baseName s) existing
        | none => unknownDestination destRoot (baseName s) existing) :: existing)
    constructor
    · rw [ihA]
      simp
    · intro op hop
      rcases ihB op hop with hop2 | hop2
      · rcases List.mem_append.mp hop2 with hop3 | hop3
        · exact Or.inl hop3
        · simp only [List.mem_singleton] at hop3
          subst hop3
          exact Or.inr ⟨n, hn⟩
      · exact Or.inr hop2

/-- C5: planning `N` kept sources that share one base filename and all map
to the same destination directory — same calendar date, or all in the
unknown bucket — yields, in source order, exactly the destinations
`name.ext, name_1.ext, …, name_(N-1).ext` (`planCand dir name 0 .. N-1`),
gapless and without repeats. -/
theorem claim_C5_collision_suffixes (destRoot name : String) (best : String → Option Time)
    (sources : List String) (hbase : ∀ s ∈ sources, baseName s = name) :
    (∀ y mo d : Nat,
      (∀ s ∈ sources, ∃ t, best s = some t ∧ t.isZero = false ∧
        t.year = y ∧ t.month = mo ∧ t.day = d) →
      (PlanDestinations destRoot sources best).map (fun op => op.destinationPath) =
        (List.range sources.length).map (fun i => planCand
          (joinPath (joinPath (joinPath destRoot (padDec 4 y)) (padDec 2 mo)) (padDec 2 d))
          name i)) ∧
    ((∀ s ∈ sources, best s = none ∨ ∃ t, best s = some t ∧ t.isZero = true) →
      (PlanDestinations destRoot sources best).map (fun op => op.destinationPath) =
        (List.range sources.length).map (fun i =>
          planCand (joinPath destRoot "unknown") name i)) := by
  constructor
  · intro y mo d hdate
    have huni : ∀ s ∈ sources, ∀ e : List String,
        (match best s with
         | some t =>
           if t.isZero = false then Destination destRoot (baseName s) t e
           else unknownDestination destRoot (baseName s) e
         | none => unknownDestination destRoot (baseName s) e) =
        resolveCollision
          (joinPath (joinPath (joinPath destRoot (padDec 4 y)) (padDec 2 mo)) (padDec 2 d))
          name e := by
      intro s hs e
      obtain ⟨t, hbs, hz, hy, hmo, hd⟩ := hdate s hs
      rw [hbs]
      show (if t.isZero = false then Destination destRoot (baseName s) t e
        else unknownDestination destRoot (baseName s) e) = _
      rw [if_pos hz]
      unfold Destination
      rw [hy, hmo, hd, hbase s hs]
    have hseq := planFold_sequence destRoot name
      (joinPath (joinPath (joinPath destRoot (padDec 4 y)) (padDec 2 mo)) (padDec 2 d))
      best sources 0 [] [] huni (by intro x; simp)
    unfold PlanDestinations
    rw [hseq]
    simp only [List.map_nil, List.nil_append]
    apply List.map_congr_left
    intro i _
    rw [Nat.zero_add]
  · intro hunk
    have huni : ∀ s ∈ sources, ∀ e : List String,
        (match best s with
         | some t =>
           if t.isZero = false then Destination destRoot (baseName s) t e
           else unknownDestination destRoot (baseName s) e
         | none => unknownDestination destRoot (baseName s) e) =
        resolveCollision (joinPath destRoot "unknown") name e := by
      intro s hs e
      rcases hunk s hs with hn | ⟨t, hbs, hz⟩
      · rw [hn]
        show unknownDestination destRoot (baseName s) e = _
        rw [unknownDestination_eq_resolveCollision, hbase s hs]
      · rw [hbs]
        show (if t.isZero = false then Destination destRoot (baseName s) t e
          else unknownDestination destRoot (baseName s) e) = _
        rw [if_neg (by simp [hz]), unknownDestination_eq_resolveCollision, hbase s hs]
    have hseq := planFold_sequence destRoot name (joinPath destRoot "unknown")
      best sources 0 [] [] huni (by intro x; simp)
    unfold PlanDestinations
    rw [hseq]
    simp only [List.map_nil, List.nil_append]
    apply List.map_congr_left
    intro i _
    rw [Nat.zero_add]

/-- Best-timestamp map for the C5 witness: every source carries the same
calendar date. -/
def bestC5W : String → Option Time := fun _ => some (timeDate 2023 11 15 10 30 0 0)

/-- Witness for C5 on three same-named sources planned into one dated
directory. -/
theorem claim_C5_collision_suffixes_witness :
    (PlanDestinations "/dest" ["x/photo.jpg", "y/photo.jpg", "z/photo.jpg"] bestC5W).map
      (fun op => op.destinationPath) =
      (List.range (["x/photo.jpg", "y/photo.jpg", "z/photo.jpg"] : List String).length).map
        (fun i => planCand
          (joinPath (joinPath (joinPath "/dest" (padDec 4 2023)) (padDec 2 11)) (padDec 2 15))
          "photo.jpg" i) :=
  (claim_C5_collision_suffixes "/dest" "photo.jpg" bestC5W
      ["x/photo.jpg", "y/photo.jpg", "z/photo.jpg"] (by decide)).1 2023 11 15
    (fun s _ => ⟨timeDate 2023 11 15 10 30 0 0, rfl, by decide, rfl, rfl, rfl⟩)

/-- C6: `PlanDestinations` emits exactly one operation per kept source, in
order, and every operation's destination is
`<root>/YYYY/MM/DD/<base name, possibly suffixed>` — zero-padded from the
best timestamp's own calendar fields — when the best timestamp is present
and non-zero, and `<root>/unknown/<base name, possibly suffixed>`
otherwise. -/
theorem claim_C6_destination_layout (destRoot : String) (sources : List String)
    (best : String → Option Time) :
    ((PlanDestinations destRoot sources best).map (fun op => op.sourcePath) = sources) ∧
    ∀ op ∈ PlanDestinations destRoot sources best, ∃ n : Nat,
      op.destinationPath = planCand (specDir destRoot (best op.sourcePath))
        (baseName op.sourcePath) n := by
  have h := planFold_shape destRoot best sources [] []
  constructor
  · have h1 := h.1
    unfold PlanDestinations
    rw [h1]
    simp
  · intro op hop
    rcases h.2 op hop with h2 | h2
    · simp at h2
    · exact h2

/-! ## Destination reconciler (`reconcile.ResolveAgainstDestination`) -/

/-- A destination filesystem with explicit existence: an association of
paths to byte contents; `lookup = none` is `os.IsNotExist`. -/
abbrev FS := List (String × List Nat)

/-- "Is not the path separator" — the scan predicate of `filepath.Dir`
and `filepath.Base`. -/
def notSlash (c : Char) : Bool := c ≠ '/'

/-- `filepath.Dir` for cleaned paths: everything before the final slash,
`"."` when there is none. -/
def dirName (p : String) : String :=
  if p.toList.contains '/' then ⟨((p.toList.reverse.dropWhile notSlash).drop 1).reverse⟩
  else "."

/-- The probe loop of `ResolveAgainstDestination` for one operation, with
explicit fuel; the candidate at index `n` is built from the source's base
name exactly as the planner builds suffixed names (`planCand`).  Returns
the final path, the action, whether the path was reserved, and the list of
candidates that were actually stat'd; `none` models fuel exhaustion (the
Go loop is unbounded) or a stat error on the source. -/
def probeLoop (fs : FS) (reserved : List String) (src destDir filename : String) :
    Nat → Nat → Option (String × Action × Bool × List String)
  | _, 0 => none
  | n, fuel + 1 =>
    if reserved.contains (planCand destDir filename n) then
      probeLoop fs reserved src destDir filename (n + 1) fuel
    else
      match fs.lookup (planCand destDir filename n) with
      | none =>
        some (planCand destDir filename n,
          (if n = 0 then Action.copy else Action.copyRenamed), true,
          [planCand destDir filename n])
      | some candContent =>
        match fs.lookup src with
        | none => none
        | some srcContent =>
          if filesAreIdentical srcContent candContent then
            some (planCand destDir filename n, Action.skippedIdentical, false,
              [planCand destDir filename n])
          else
            match probeLoop fs reserved src destDir filename (n + 1) fuel with
            | none => none
            | some (f, a, r, stats) =>
              some (f, a, r, planCand destDir filename n :: stats)

/-- One iteration of `ResolveAgainstDestination`: run the probe loop for
an operation and build its `Decision`, returning the updated reservation
set and the stat trace. -/
def resolveOne (fs : FS) (reserved : List String) (op : Operation) :
    Option (Decision × List String × List String) :=
  match probeLoop fs reserved op.sourcePath (dirName op.destinationPath)
      (baseName op.sourcePath) 0 (reserved.length + fs.length + 1) with
  | none => none
  | some (final, act, resv, stats) =>
    some ({ sourcePath := op.sourcePath, destinationPath := op.destinationPath,
            finalDestinationPath := final, action := act },
          (if resv then final :: reserved else reserved), stats)

/-- The operation loop of `ResolveAgainstDestination`, threading the
reservation set. -/
def resolveGo (fs : FS) : List String → List Operation → Option (List Decision)
  | _, [] => some []
  | reserved, op :: rest =>
    match resolveOne fs reserved op with
    | none => none
    | some (d, reserved2, _) =>
      match resolveGo fs reserved2 rest with
      | none => none
      | some ds => some (d :: ds)

/-- `reconcile.ResolveAgainstDestination` in its success case. -/
def ResolveAgainstDestination (fs : FS) (ops : List Operation) : Option (List Decision) :=
  resolveGo fs [] ops

theorem probeLoop_spec (fs : FS) (src destDir filename : String) (reserved : List String) :
    ∀ (fuel n : Nat) (final : String) (act : Action) (resv : Bool) (stats : List String),
    probeLoop fs reserved src destDir filename n fuel = some (final, act, resv, stats) →
    ∃ j, n ≤ j ∧ final = planCand destDir filename j ∧
      (∀ m, n ≤ m → m < j → planCand destDir filename m ∈ reserved ∨
        ∃ c, fs.lookup (planCand destDir filename m) = some c ∧
          ∃ sc, fs.lookup src = some sc ∧ filesAreIdentical sc c = false) ∧
      planCand destDir filename j ∉ reserved ∧
      ((fs.lookup (planCand destDir filename j) = none ∧
        act = (if j = 0 then Action.copy else Action.copyRenamed) ∧ resv = true) ∨
       (∃ c, fs.lookup (planCand destDir filename j) = some c ∧
        ∃ sc, fs.lookup src = some sc ∧ filesAreIdentical sc c = true ∧
        act = Action.skippedIdentical ∧ resv = false)) ∧
      (∀ x ∈ stats, x ∉ reserved) := by
  intro fuel
  induction fuel with
  | zero =>
    intro n final act resv stats h
    simp [probeLoop] at h
  | succ fuel ih =>
    intro n final act resv stats h
    simp only [probeLoop] at h
    split at h
    · rename_i hres
      obtain ⟨j, hj1, hj2, hj3, hj4, hj5, hj6⟩ := ih (n + 1) final act resv stats h
      refine ⟨j, by omega, hj2, ?_, hj4, hj5, hj6⟩
      intro m hm1 hm2
      by_cases hmn : m = n
      · subst hmn
        exact Or.inl (List.elem_iff.mp hres)
      · exact hj3 m (by omega) hm2
    · rename_i hres
      have hnres : planCand destDir filename n ∉ reserved :=
        fun hm => hres (List.elem_iff.mpr hm)
      split at h
      · rename_i hlc
        simp only [Option.some.injEq, Prod.mk.injEq] at h
        obtain ⟨h1, h2, h3, h4⟩ := h
        subst h1
        subst h2
        subst h3
        subst h4
        refine ⟨n, le_rfl, rfl, by intro m hm1 hm2; omega, hnres,
          Or.inl ⟨hlc, rfl, rfl⟩, ?_⟩
        intro x hx
        simp only [List.mem_singleton] at hx
        subst hx
        exact hnres
      · rename_i candContent hlc
        split at h
        · rename_i hls
          simp at h
        · rename_i srcContent hls
          split at h
          · rename_i hid
            simp only [Option.some.injEq, Prod.mk.injEq] at h
            obtain ⟨h1, h2, h3, h4⟩ := h
            subst h1
            subst h2
            subst h3
            subst h4
            refine ⟨n, le_rfl, rfl, by intro m hm1 hm2; omega, hnres,
              Or.inr ⟨candContent, hlc, srcContent, hls, hid, rfl, rfl⟩, ?_⟩
            intro x hx
            simp only [List.mem_singleton] at hx
            subst hx
            exact hnres
          · rename_i hid
            split at h
            · simp at h
            · rename_i f a r stats2 hrec
              simp only [Option.some.injEq, Prod.mk.injEq] at h
              obtain ⟨h1, h2, h3, h4⟩ := h
              subst h1
              subst h2
              subst h3
              subst h4
              obtain ⟨j, hj1, hj2, hj3, hj4, hj5, hj6⟩ := ih (n + 1) _ _ _ _ hrec
              have hidf : filesAreIdentical srcContent candContent = false := by
                cases hii : filesAreIdentical srcContent candContent with
                | true => exact absurd hii hid
                | false => rfl
              refine ⟨j, by omega, hj2, ?_, hj4, hj5, ?_⟩
              · intro m hm1 hm2
                by_cases hmn : m = n
                · subst hmn
                  exact Or.inr ⟨candContent, hlc, srcContent, hls, hidf⟩
                · exact hj3 m (by omega) hm2
              · intro x hx
                rcases List.mem_cons.mp hx with hx | hx
                · subst hx
                  exact hnres
                · exact hj6 x hx

/-- C7: a successful per-operation reconciliation probes the candidates
`planCand destDir (base of source) 0, 1, 2, …` in order; every candidate
before the chosen index was either already reserved in this call (and was
then skipped without being stat'd — the stat trace never contains a
reserved path) or existed with different content; the chosen candidate is
unreserved, and either it does not exist — then it becomes the
`FinalDestinationPath`, is reserved, and the action is `copy` at index 0
and `copy_renamed` otherwise — or it exists with byte-identical content —
then the action is `skipped_identical` and nothing is reserved. -/
theorem claim_C7_probe_order (fs : FS) (reserved : List String) (op : Operation)
    (d : Decision) (reserved2 stats : List String)
    (h : resolveOne fs reserved op = some (d, reserved2, stats)) :
    d.sourcePath = op.sourcePath ∧ d.destinationPath = op.destinationPath ∧
    (∀ x ∈ stats, x ∉ reserved) ∧
    ∃ j : Nat,
      d.finalDestinationPath =
        planCand (dirName op.destinationPath) (baseName op.sourcePath) j ∧
      (∀ m, m < j →
        planCand (dirName op.destinationPath) (baseName op.sourcePath) m ∈ reserved ∨
        ∃ c, fs.lookup (planCand (dirName op.destinationPath) (baseName op.sourcePath) m) =
            some c ∧
          ∃ sc, fs.lookup op.sourcePath = some sc ∧ filesAreIdentical sc c = false) ∧
      planCand (dirName op.destinationPath) (baseName op.sourcePath) j ∉ reserved ∧
      ((fs.lookup (planCand (dirName op.destinationPath) (baseName op.sourcePath) j) =
          none ∧
        d.action = (if j = 0 then Action.copy else Action.copyRenamed) ∧
        reserved2 =
          planCand (dirName op.destinationPath) (baseName op.sourcePath) j :: reserved) ∨
       (∃ c, fs.lookup (planCand (dirName op.destinationPath) (baseName op.sourcePath) j) =
          some c ∧
        ∃ sc, fs.lookup op.sourcePath = some sc ∧ filesAreIdentical sc c = true ∧
        d.action = Action.skippedIdentical ∧ reserved2 = reserved)) := by
  unfold resolveOne at h
  cases hpl : probeLoop fs reserved op.sourcePath (dirName op.destinationPath)
      (baseName op.sourcePath) 0 (reserved.length + fs.length + 1) with
  | none =>
    rw [hpl] at h
    simp at h
  | some res =>
    obtain ⟨final, act, resv, stats2⟩ := res
    rw [hpl] at h
    simp only [Option.some.injEq, Prod.mk.injEq] at h
    obtain ⟨h1, h2, h3⟩ := h
    subst h1
    subst h2
    subst h3
    obtain ⟨j, _, hj2, hj3, hj4, hj5, hj6⟩ := probeLoop_spec fs op.sourcePath
      (dirName op.destinationPath) (baseName op.sourcePath) reserved
      (reserved.length + fs.length + 1) 0 final act resv stats2 hpl
    refine ⟨rfl, rfl, hj6, j, hj2, (fun m hm => hj3 m (Nat.zero_le m) hm), hj4, ?_⟩
    rcases hj5 with ⟨ha, hb, hc⟩ | ⟨c, hca, sc, hcb, hcc, hcd, hce⟩
    · subst hc
      refine Or.inl ⟨ha, hb, ?_⟩
      rw [if_pos rfl, hj2]
    · subst hce
      refine Or.inr ⟨c, hca, sc, hcb, hcc, hcd, ?_⟩
      rw [if_neg (by simp)]

theorem resolveGo_pairwise (fs : FS) :
    ∀ (ops : List Operation) (reserved : List String) (ds : List Decision),
    resolveGo fs reserved ops = some ds →
    (∀ d ∈ ds, (d.action = Action.copy ∨ d.action = Action.copyRenamed) →
      d.finalDestinationPath ∉ reserved) ∧
    List.Pairwise (fun d1 d2 =>
      (d1.action = Action.copy ∨ d1.action = Action.copyRenamed) →
      (d2.action = Action.copy ∨ d2.action = Action.copyRenamed) →
      d1.finalDestinationPath ≠ d2.finalDestinationPath) ds := by
  intro ops
  induction ops with
  | nil =>
    intro reserved ds h
    simp only [resolveGo, Option.some.injEq] at h
    subst h
    exact ⟨by intro d hd; simp at hd, List.Pairwise.nil⟩
  | cons op rest ih =>
    intro reserved ds h
    simp only [resolveGo] at h
    split at h
    · simp at h
    · rename_i d1 reserved2 stats hro
      split at h
      · simp at h
      · rename_i ds2 hrec
        simp only [Option.some.injEq] at h
        subst h
        obtain ⟨ihA, ihB⟩ := ih reserved2 ds2 hrec
        have hfacts : (reserved ⊆ reserved2) ∧
            ((d1.action = Action.copy ∨ d1.action = Action.copyRenamed) →
              d1.finalDestinationPath ∉ reserved ∧
              reserved2 = d1.finalDestinationPath :: reserved) := by
          unfold resolveOne at hro
          cases hpl : probeLoop fs reserved op.sourcePath (dirName op.destinationPath)
              (baseName op.sourcePath) 0 (reserved.length + fs.length + 1) with
          | none =>
            rw [hpl] at hro
            simp at hro
          | some res =>
            obtain ⟨final, act, resv, stats2⟩ := res
            rw [hpl] at hro
            simp only [Option.some.injEq, Prod.mk.injEq] at hro
            obtain ⟨e1, e2, e3⟩ := hro
            obtain ⟨j, _, hj2, _, hj4, hj5, _⟩ := probeLoop_spec fs op.sourcePath
              (dirName op.destinationPath) (baseName op.sourcePath) reserved
              (reserved.length + fs.length + 1) 0 final act resv stats2 hpl
            constructor
            · rw [← e2]
              cases resv with
              | true =>
                rw [if_pos rfl]
                exact fun x hx => List.mem_cons_of_mem _ hx
              | false =>
                rw [if_neg (by simp)]
                exact fun x hx => hx
            · intro hact
              have hact2 : act = Action.copy ∨ act = Action.copyRenamed := by
                rw [← e1] at hact
                exact hact
              rcases hj5 with ⟨ha, hb, hc⟩ | ⟨c, hca, sc, hcb, hcc, hcd, hce⟩
              · constructor
                · rw [← e1]
                  show final ∉ reserved
                  rw [hj2]
                  exact hj4
                · rw [← e2, ← e1]
                  subst hc
                  rw [if_pos rfl]
              · exfalso
                rw [hcd] at hact2
                rcases hact2 with hcontra | hcontra <;> cases hcontra
        constructor
        · intro d hd hda
          rcases List.mem_cons.mp hd with hd | hd
          · subst hd
            exact (hfacts.2 hda).1
          · intro hmem
            exact (ihA d hd hda) (hfacts.1 hmem)
        · refine List.Pairwise.cons ?_ ihB
          intro d2 hd2 hda hda2
          have h2 := ihA d2 hd2 hda2
          have h3 := (hfacts.2 hda).2
          rw [h3] at h2
          intro he
          exact h2 (by rw [← he]; exact List.mem_cons_self _ _)

/-- C8: among the decisions of one successful `ResolveAgainstDestination`
call, no two `copy`/`copy_renamed` decisions share a final destination
path. -/
theorem claim_C8_unique_final_paths (fs : FS) (ops : List Operation)
    (decisions : List Decision)
    (h : ResolveAgainstDestination fs ops = some decisions) :
    List.Pairwise (fun d1 d2 =>
      (d1.action = Action.copy ∨ d1.action = Action.copyRenamed) →
      (d2.action = Action.copy ∨ d2.action = Action.copyRenamed) →
      d1.finalDestinationPath ≠ d2.finalDestinationPath) decisions :=
  (resolveGo_pairwise fs ops [] decisions h).2

/-- Destination filesystem for the C7 witness: the planned destination is
occupied by different content. -/
def fsC7 : FS := [("src/photo.jpg", [7]), ("/out/photo.jpg", [5])]

/-- Operation for the C7 witness. -/
def opC7 : Operation := ⟨"src/photo.jpg", "/out/photo.jpg"⟩

/-- Decision the C7 witness run produces. -/
def dC7 : Decision :=
  { sourcePath := "src/photo.jpg", destinationPath := "/out/photo.jpg",
    finalDestinationPath := "/out/photo_1.jpg", action := Action.copyRenamed }

/-- Witness for C7: the occupied, different-content `photo.jpg` forces
`copy_renamed` into `photo_1.jpg`. -/
theorem claim_C7_probe_order_witness :
    dC7.sourcePath = opC7.sourcePath ∧ dC7.destinationPath = opC7.destinationPath ∧
    (∀ x ∈ (["/out/photo.jpg", "/out/photo_1.jpg"] : List String), x ∉ ([] : List String)) ∧
    ∃ j : Nat,
      dC7.finalDestinationPath =
        planCand (dirName opC7.destinationPath) (baseName opC7.sourcePath) j ∧
      (∀ m, m < j →
        planCand (dirName opC7.destinationPath) (baseName opC7.sourcePath) m ∈
          ([] : List String) ∨
        ∃ c, fsC7.lookup (planCand (dirName opC7.destinationPath)
            (baseName opC7.sourcePath) m) = some c ∧
          ∃ sc, fsC7.lookup opC7.sourcePath = some sc ∧ filesAreIdentical sc c = false) ∧
      planCand (dirName opC7.destinationPath) (baseName opC7.sourcePath) j ∉
        ([] : List String) ∧
      ((fsC7.lookup (planCand (dirName opC7.destinationPath) (baseName opC7.sourcePath) j) =
          none ∧
        dC7.action = (if j = 0 then Action.copy else Action.copyRenamed) ∧
        (["/out/photo_1.jpg"] : List String) =
          planCand (dirName opC7.destinationPath) (baseName opC7.sourcePath) j ::
            ([] : List String)) ∨
       (∃ c, fsC7.lookup (planCand (dirName opC7.destinationPath)
          (baseName opC7.sourcePath) j) = some c ∧
        ∃ sc, fsC7.lookup opC7.sourcePath = some sc ∧ filesAreIdentical sc c = true ∧
        dC7.action = Action.skippedIdentical ∧
        (["/out/photo_1.jpg"] : List String) = ([] : List String))) :=
  claim_C7_probe_order fsC7 [] opC7 dC7 ["/out/photo_1.jpg"]
    ["/out/photo.jpg", "/out/photo_1.jpg"] (by decide)

/-- Destination filesystem for the C8 witness. -/
def fsC8 : FS := [("s1/a.jpg", [1]), ("s2/a.jpg", [2])]

/-- Operations for the C8 witness: two sources planned onto the same
destination path. -/
def opsC8 : List Operation := [⟨"s1/a.jpg", "/o/a.jpg"⟩, ⟨"s2/a.jpg", "/o/a.jpg"⟩]

/-- Decisions the C8 witness run produces. -/
def dsC8 : List Decision :=
  [{ sourcePath := "s1/a.jpg", destinationPath := "/o/a.jpg",
     finalDestinationPath := "/o/a.jpg", action := Action.copy },
   { sourcePath := "s2/a.jpg", destinationPath := "/o/a.jpg",
     finalDestinationPath := "/o/a_1.jpg", action := Action.copyRenamed }]

/-- Witness for C8 on a run yielding one `copy` and one `copy_renamed`. -/
theorem claim_C8_unique_final_paths_witness :
    List.Pairwise (fun d1 d2 =>
      (d1.action = Action.copy ∨ d1.action = Action.copyRenamed) →
      (d2.action = Action.copy ∨ d2.action = Action.copyRenamed) →
      d1.finalDestinationPath ≠ d2.finalDestinationPath) dsC8 :=
  claim_C8_unique_final_paths fsC8 opsC8 dsC8 (by decide)

/-! ## Timestamp attribution (`createdat.DetermineDetailed`) -/

/-- `fs.FileInfo` as the attributor consumes it: directory flag and
modification time. -/
structure FileInfo where
  isDir : Bool
  modTime : Time
deriving DecidableEq, Repr

/-- `createdat.Options`: the location for filename timestamps is a fixed
offset in seconds east of UTC (0 = UTC), and the metadata extractor
returns Go's `(timestamp, found, error)` triple, with the error as a flag.
Go substitutes a default EXIF extractor when the field is nil; the
embedding takes the extractor actually used. -/
structure Options where
  loc : Int
  meta : String → Time × Bool × Bool

/-- ASCII digit test (`\d` of Go regexp). -/
def isDigitChar (c : Char) : Bool := '0' ≤ c ∧ c ≤ '9'

/-- Consume exactly `n` digits, returning them and the rest. -/
def takeDigits : Nat → List Char → Option (List Char × List Char)
  | 0, cs => some ([], cs)
  | _ + 1, [] => none
  | n + 1, c :: cs =>
    if isDigitChar c then
      match takeDigits n cs with
      | none => none
      | some (ds, rest) => some (c :: ds, rest)
    else none

/-- Consume a literal, case-insensitively (the `(?i)` flag of the Go
patterns; non-letters compare unchanged). -/
def expectCI : List Char → List Char → Option (List Char)
  | [], cs => some cs
  | _ :: _, [] => none
  | p :: ps, c :: cs => if c.toLower = p.toLower then expectCI ps cs else none

/-- `^(?:IMG|VID)_(\d{8})_(\d{6})`, case-insensitively. -/
def matchImgVid (cs : List Char) : Option (List Char × List Char) := do
  let r1 ← (expectCI "IMG".toList cs) <|> (expectCI "VID".toList cs)
  let r2 ← expectCI "_".toList r1
  let (d8, r3) ← takeDigits 8 r2
  let r4 ← expectCI "_".toList r3
  let (d6, _) ← takeDigits 6 r4
  some (d8, d6)

/-- `^PXL_(\d{8})_(\d{6})\d{3,}`, case-insensitively. -/
def matchPxl (cs : List Char) : Option (List Char × List Char) := do
  let r1 ← expectCI "PXL_".toList cs
  let (d8, r2) ← takeDigits 8 r1
  let r3 ← expectCI "_".toList r2
  let (d6, r4) ← takeDigits 6 r3
  let _ ← takeDigits 3 r4
  some (d8, d6)

/-- `^(\d{4})-(\d{2})-(\d{2})[ _](\d{2})\.(\d{2})\.(\d{2})`. -/
def matchDashDots (cs : List Char) :
    Option (List Char × List Char × List Char × List Char × List Char × List Char) := do
  let (y, r1) ← takeDigits 4 cs
  let r2 ← expectCI "-".toList r1
  let (mo, r3) ← takeDigits 2 r2
  let r4 ← expectCI "-".toList r3
  let (d, r5) ← takeDigits 2 r4
  match r5 with
  | [] => none
  | c :: r6 =>
    if c = ' ' ∨ c = '_' then do
      let (h, r7) ← takeDigits 2 r6
      let r8 ← expectCI ".".toList r7
      let (mi, r9) ← takeDigits 2 r8
      let r10 ← expectCI ".".toList r9
      let (sec, _) ← takeDigits 2 r10
      some (y, mo, d, h, mi, sec)
    else none

/-- `^IMG-(\d{8})-WA\d+`, case-insensitively. -/
def matchWhatsApp (cs : List Char) : Option (List Char) := do
  let r1 ← expectCI "IMG-".toList cs
  let (d8, r2) ← takeDigits 8 r1
  let r3 ← expectCI "-WA".toList r2
  let _ ← takeDigits 1 r3
  some d8

/-- `^Screenshot_(\d{4})-(\d{2})-(\d{2})-(\d{2})-(\d{2})-(\d{2})`,
case-insensitively. -/
def matchScreenshot (cs : List Char) :
    Option (List Char × List Char × List Char × List Char × List Char × List Char) := do
  let r1 ← expectCI "Screenshot_".toList cs
  let (y, r2) ← takeDigits 4 r1
  let r3 ← expectCI "-".toList r2
  let (mo, r4) ← takeDigits 2 r3
  let r5 ← expectCI "-".toList r4
  let (d, r6) ← takeDigits 2 r5
  let r7 ← expectCI "-".toList r6
  let (h, r8) ← takeDigits 2 r7
  let r9 ← expectCI "-".toList r8
  let (mi, r10) ← takeDigits 2 r9
  let r11 ← expectCI "-".toList r10
  let (sec, _) ← takeDigits 2 r11
  some (y, mo, d, h, mi, sec)

/-- Numeric value of a digit string (`strconv.Atoi`, which cannot fail on
the all-digit captures the patterns produce). -/
def digitsToNat (ds : List Char) : Nat :=
  ds.foldl (fun acc c => acc * 10 + (c.toNat - 48)) 0

/-- `createdat.parseYYYYMMDD`. -/
def parseYYYYMMDD (d8 : List Char) : Option (Nat × Nat × Nat) :=
  if d8.length = 8 then
    some (digitsToNat (d8.take 4), digitsToNat ((d8.drop 4).take 2), digitsToNat (d8.drop 6))
  else none

/-- `createdat.parseYYYYMMDD_HHMMSS`. -/
def parseYYYYMMDD_HHMMSS (d8 d6 : List Char) (loc : Int) : Option Time :=
  match parseYYYYMMDD d8 with
  | none => none
  | some (y, mo, d) =>
    if d6.length = 6 then
      some (timeDate y mo d (digitsToNat (d6.take 2)) (digitsToNat ((d6.drop 2).take 2))
        (digitsToNat (d6.drop 4)) loc)
    else none

/-- `createdat.parseFromFilename`: try the five patterns in order; a
matched pattern's parse result is returned directly, with no fallthrough
to later patterns. -/
def parseFromFilename (filename : String) (loc : Int) : Option Time :=
  match matchImgVid filename.toList with
  | some (d8, d6) => parseYYYYMMDD_HHMMSS d8 d6 loc
  | none =>
  match matchPxl filename.toList with
  | some (d8, d6) => parseYYYYMMDD_HHMMSS d8 d6 loc
  | none =>
  match matchDashDots filename.toList with
  | some (y, mo, d, h, mi, sec) =>
    some (timeDate (digitsToNat y) (digitsToNat mo) (digitsToNat d) (digitsToNat h)
      (digitsToNat mi) (digitsToNat sec) loc)
  | none =>
  match matchWhatsApp filename.toList with
  | some d8 =>
    (match parseYYYYMMDD d8 with
     | none => none
     | some (y, mo, d) => some (timeDate y mo d 0 0 0 loc))
  | none =>
  match matchScreenshot filename.toList with
  | some (y, mo, d, h, mi, sec) =>
    some (timeDate (digitsToNat y) (digitsToNat mo) (digitsToNat d) (digitsToNat h)
      (digitsToNat mi) (digitsToNat sec) loc)
  | none => none

/-- `result.Metadata` after the metadata attempt: the extracted timestamp
when the extractor reported it found without error, else the zero value it
was initialised to. -/
def mdOf (opts : Options) (path : String) : Time :=
  if (opts.meta path).2.2 = false ∧ (opts.meta path).2.1 = true then
    (opts.meta path).1
  else zeroTimeV

/-- `result.Filename` after the filename attempt. -/
def fnOf (opts : Options) (path : String) : Time :=
  match parseFromFilename (baseName path) opts.loc with
  | some t => t
  | none => zeroTimeV

/-- `result.Filestat` after the mtime attempt. -/
def fsOf (info : FileInfo) : Time :=
  if info.modTime.isZero = false then info.modTime else zeroTimeV

/-- `result.Best`: the priority cascade metadata > filename > mtime >
unknown over the three collected timestamps. -/
def bestOf (md fn fsT : Time) : Result :=
  if md.isZero = false then ⟨md, Source.metadata⟩
  else if fn.isZero = false then ⟨fn, Source.filename⟩
  else if fsT.isZero = false then ⟨fsT, Source.mtime⟩
  else ⟨zeroTimeV, Source.unknown⟩

/-- `createdat.DetermineDetailed` (paths already clean; opening a stat-able
file succeeds, as in the in-memory filesystems the program uses): stat,
reject directories, collect the metadata/filename/filestat candidate
timestamps, and choose the best by the fixed priority. -/
def DetermineDetailed (fsys : String → Option FileInfo) (path : String) (opts : Options) :
    Option DetailedResult :=
  match fsys path with
  | none => none
  | some info =>
    if info.isDir = true then none
    else
      some ⟨bestOf (mdOf opts path) (fnOf opts path) (fsOf info),
        mdOf opts path, fnOf opts path, fsOf info⟩

/-- `createdat.Determine`. -/
def Determine (fsys : String → Option FileInfo) (path : String) (opts : Options) :
    Option Result :=
  match DetermineDetailed fsys path opts with
  | none => none
  | some d => some d.best

/-! ## C9: timestamp attribution priority -/

theorem DetermineDetailed_eq (fsys : String → Option FileInfo) (path : String)
    (opts : Options) (info : FileInfo)
    (hstat : fsys path = some info) (hdir : info.isDir = false) :
    DetermineDetailed fsys path opts =
      some ⟨bestOf (mdOf opts path) (fnOf opts path) (fsOf info),
        mdOf opts path, fnOf opts path, fsOf info⟩ := by
  unfold DetermineDetailed
  rw [hstat]
  show (if info.isDir = true then (none : Option DetailedResult) else
      some ⟨bestOf (mdOf opts path) (fnOf opts path) (fsOf info),
        mdOf opts path, fnOf opts path, fsOf info⟩) = _
  rw [if_neg (by simp [hdir])]

theorem zeroTimeV_isZero : zeroTimeV.isZero = true := by decide

theorem bestOf_metadata (md fn fsT : Time) (h : md.isZero = false) :
    bestOf md fn fsT = ⟨md, Source.metadata⟩ := by
  unfold bestOf; rw [if_pos h]

theorem bestOf_filename (md fn fsT : Time) (h0 : md.isZero = true) (h1 : fn.isZero = false) :
    bestOf md fn fsT = ⟨fn, Source.filename⟩ := by
  unfold bestOf; rw [if_neg (by simp [h0]), if_pos h1]

theorem bestOf_mtime (md fn fsT : Time) (h0 : md.isZero = true) (h1 : fn.isZero = true)
    (h2 : fsT.isZero = false) : bestOf md fn fsT = ⟨fsT, Source.mtime⟩ := by
  unfold bestOf; rw [if_neg (by simp [h0]), if_neg (by simp [h1]), if_pos h2]

theorem bestOf_unknown (md fn fsT : Time) (h0 : md.isZero = true) (h1 : fn.isZero = true)
    (h2 : fsT.isZero = true) : bestOf md fn fsT = ⟨zeroTimeV, Source.unknown⟩ := by
  unfold bestOf; rw [if_neg (by simp [h0]), if_neg (by simp [h1]), if_neg (by simp [h2])]

theorem mdOf_pos (opts : Options) (path : String)
    (he : (opts.meta path).2.2 = false) (hf : (opts.meta path).2.1 = true) :
    mdOf opts path = (opts.meta path).1 := by
  unfold mdOf; rw [if_pos ⟨he, hf⟩]

theorem mdOf_neg (opts : Options) (path : String)
    (h : (opts.meta path).2.2 = true ∨ (opts.meta path).2.1 = false) :
    mdOf opts path = zeroTimeV := by
  unfold mdOf
  rcases h with h | h <;> rw [if_neg (by simp [h])]

theorem fnOf_some (opts : Options) (path : String) (t : Time)
    (h : parseFromFilename (baseName path) opts.loc = some t) :
    fnOf opts path = t := by
  unfold fnOf; rw [h]

theorem fnOf_none (opts : Options) (path : String)
    (h : parseFromFilename (baseName path) opts.loc = none) :
    fnOf opts path = zeroTimeV := by
  unfold fnOf; rw [h]

theorem fsOf_pos (info : FileInfo) (h : info.modTime.isZero = false) :
    fsOf info = info.modTime := by
  unfold fsOf; rw [if_pos h]

theorem fsOf_neg (info : FileInfo) (h : info.modTime.isZero = true) :
    fsOf info = zeroTimeV := by
  unfold fsOf; rw [if_neg (by simp [h])]

/-- Concrete filesystem for the C9 scenario: a single photo file whose
modification time is deliberately non-zero, so the filename pattern must
win over mtime by priority alone. -/
def fsC9 : String → Option FileInfo := fun p =>
  if p = "root/IMG_20250102_030405.jpg" then some ⟨false, timeDate 2030 1 1 0 0 0 0⟩
  else none

/-- Metadata extractor reporting no embedded timestamp. -/
def metaNoneC9 : String → Time × Bool × Bool := fun _ => (zeroTimeV, false, false)

/-- **C9.** For every existing non-directory file, `DetermineDetailed`
succeeds (and `Determine` returns the same best), choosing by the fixed
priority: a metadata timestamp reported found without error (and non-zero,
the data model's encoding of presence) wins with source `metadata`; when
the extractor errors or reports not-found, a matching filename pattern
whose parse is non-zero wins with source `filename`; otherwise a non-zero
modification time wins with source `mtime`; otherwise the result is the
zero timestamp with source `unknown`.  In particular, on a filesystem
holding `IMG_20250102_030405.jpg` with no embedded metadata and zone UTC,
the attributed timestamp is 2025-01-02T03:04:05Z with source `filename`. -/
theorem claim_C9_timestamp_priority (fsys : String → Option FileInfo) (path : String)
    (opts : Options) (info : FileInfo)
    (hstat : fsys path = some info) (hdir : info.isDir = false) :
    (∃ r : DetailedResult, DetermineDetailed fsys path opts = some r ∧
      Determine fsys path opts = some r.best ∧
      (((opts.meta path).2.2 = false ∧ (opts.meta path).2.1 = true ∧
          ((opts.meta path).1).isZero = false) →
        r.best = ⟨(opts.meta path).1, Source.metadata⟩) ∧
      (((opts.meta path).2.2 = true ∨ (opts.meta path).2.1 = false) →
        ∀ t, parseFromFilename (baseName path) opts.loc = some t → t.isZero = false →
          r.best = ⟨t, Source.filename⟩) ∧
      (((opts.meta path).2.2 = true ∨ (opts.meta path).2.1 = false) →
        parseFromFilename (baseName path) opts.loc = none →
        info.modTime.isZero = false → r.best = ⟨info.modTime, Source.mtime⟩) ∧
      (((opts.meta path).2.2 = true ∨ (opts.meta path).2.1 = false) →
        parseFromFilename (baseName path) opts.loc = none →
        info.modTime.isZero = true → r.best = ⟨zeroTimeV, Source.unknown⟩)) ∧
    Option.map DetailedResult.best
        (DetermineDetailed fsC9 "root/IMG_20250102_030405.jpg" ⟨0, metaNoneC9⟩) =
      some ⟨timeDate 2025 1 2 3 4 5 0, Source.filename⟩ := by
  refine ⟨?_, by decide⟩
  refine ⟨_, DetermineDetailed_eq fsys path opts info hstat hdir, ?_, ?_, ?_, ?_, ?_⟩
  · unfold Determine
    rw [DetermineDetailed_eq fsys path opts info hstat hdir]
  · rintro ⟨he, hf, hz⟩
    show bestOf (mdOf opts path) (fnOf opts path) (fsOf info) = _
    rw [mdOf_pos opts path he hf] at *
    exact bestOf_metadata _ _ _ hz
  · intro hsw t hpt hz
    show bestOf (mdOf opts path) (fnOf opts path) (fsOf info) = _
    rw [mdOf_neg opts path hsw, fnOf_some opts path t hpt]
    exact bestOf_filename _ _ _ zeroTimeV_isZero hz
  · intro hsw hpn hz
    show bestOf (mdOf opts path) (fnOf opts path) (fsOf info) = _
    rw [mdOf_neg opts path hsw, fnOf_none opts path hpn, fsOf_pos info hz]
    exact bestOf_mtime _ _ _ zeroTimeV_isZero zeroTimeV_isZero hz
  · intro hsw hpn hz
    show bestOf (mdOf opts path) (fnOf opts path) (fsOf info) = _
    rw [mdOf_neg opts path hsw, fnOf_none opts path hpn, fsOf_neg info hz]
    exact bestOf_unknown _ _ _ zeroTimeV_isZero zeroTimeV_isZero zeroTimeV_isZero

/-- Witness for C9: on the concrete filesystem, the claim instantiates and
its filename conjunct delivers source `filename` with the parsed time. -/
theorem claim_C9_timestamp_priority_witness :
    fsC9 "root/IMG_20250102_030405.jpg" = some ⟨false, timeDate 2030 1 1 0 0 0 0⟩ ∧
    (FileInfo.mk false (timeDate 2030 1 1 0 0 0 0)).isDir = false ∧
    (∃ r : DetailedResult,
      DetermineDetailed fsC9 "root/IMG_20250102_030405.jpg" ⟨0, metaNoneC9⟩ = some r ∧
      r.best = ⟨timeDate 2025 1 2 3 4 5 0, Source.filename⟩) := by
  refine ⟨by decide, rfl, ?_⟩
  obtain ⟨⟨r, hr, _, _, hfn, _, _⟩, _⟩ :=
    claim_C9_timestamp_priority fsC9 "root/IMG_20250102_030405.jpg" ⟨0, metaNoneC9⟩
      ⟨false, timeDate 2030 1 1 0 0 0 0⟩ (by decide) rfl
  exact ⟨r, hr, hfn (Or.inr (by decide)) (timeDate 2025 1 2 3 4 5 0) (by decide) (by decide)⟩

/-! ## C10: suffix placement with multi-dot filenames -/

/-- Destination filesystem for the C10 scenario: the planned destination
`archive.tar.gz` already exists with different content than the source. -/
def fsC10 : FS := [("src/archive.tar.gz", [7]), ("/out/archive.tar.gz", [5])]

/-- The single operation of the C10 scenario. -/
def opC10 : Operation :=
  { sourcePath := "src/archive.tar.gz", destinationPath := "/out/archive.tar.gz" }

/-- The decision the reconciler reaches in the C10 scenario. -/
def dC10 : Decision :=
  { sourcePath := "src/archive.tar.gz", destinationPath := "/out/archive.tar.gz",
    finalDestinationPath := "/out/archive.tar_1.gz", action := Action.copyRenamed }

/-- **C10.** When a colliding filename contains more than one dot, the
collision suffix goes before only the final extension segment: the
planner's `resolveCollision` sends a second `archive.tar.gz` to
`archive.tar_1.gz` (not `archive_1.tar.gz`); the unknown bucket splits the
name the same way; the reconciler's candidate at index 1 is the same
`archive.tar_1.gz` in any directory, and on a destination already holding
a different `archive.tar.gz` it decides `copy_renamed` to that path. -/
theorem claim_C10_multidot_suffix :
    resolveCollision "/dest/2023/11/15" "archive.tar.gz"
        ["/dest/2023/11/15/archive.tar.gz"] = "/dest/2023/11/15/archive.tar_1.gz" ∧
    resolveCollision "/dest/2023/11/15" "archive.tar.gz"
        ["/dest/2023/11/15/archive.tar.gz"] ≠ "/dest/2023/11/15/archive_1.tar.gz" ∧
    unknownDestination "/dest" "archive.tar.gz"
        ["/dest/unknown/archive.tar.gz"] = "/dest/unknown/archive.tar_1.gz" ∧
    (∀ d : String, planCand d "archive.tar.gz" 1 = joinPath d "archive.tar_1.gz") ∧
    ResolveAgainstDestination fsC10 [opC10] = some [dC10] := by
  refine ⟨by decide, by decide, by decide, ?_, by decide⟩
  intro d
  unfold planCand
  rw [if_neg one_ne_zero]
  exact congrArg (joinPath d) (by decide)

end MediaOrg
